import Mathlib

/-!
Shallow embedding of the ICS381 Sudoku solver (TypeScript sources) and
verification of its specification claims.

The repository holds two overlapping copies of the solver.  The copy with
metrics instrumentation ("part_000") is the authoritative one referenced by
the claims; the second copy ("part_001") differs only in `getNextPosition`
and in the entry points, and its `getNextPosition` is embedded separately
for the equivalence claim.

Modelling conventions:
* The 9×9 grids are total functions `ℕ → ℕ → _`; the source code only ever
  reads and writes indices `< 9` (the spec fixes the 9×9 shape as a caller
  precondition), so cells outside that range are irrelevant padding.
* `number | null` cells become `Option ℕ`.
* JS `Set` objects that are only queried for membership become Lean lists
  queried with `contains` (duplicate insertions are irrelevant).
* The subgrid key string "r-c" becomes the pair `(r / 3, c / 3)`.
-/

namespace SudokuTS
/-- A cell position `{row, col}`. -/
abbrev Pos : Type := ℕ × ℕ
/-- The `state` field: 9×9 grid of `number | null` cells. -/
abbrev Grid : Type := ℕ → ℕ → Option ℕ
/-- The `domain` field: 9×9 grid of candidate lists. -/
abbrev DMat : Type := ℕ → ℕ → List ℕ
/-- The `fixed` field: 9×9 grid of booleans. -/
abbrev FMat : Type := ℕ → ℕ → Bool
/-- The `SudokuProblem` interface: state, domain and fixed mask. -/
structure Problem where
  state : Grid
  domain : DMat
  fixd : FMat
/-- All positions of the 9×9 grid in the row-major order the nested
`for (i …) for (j …)` loops of the source visit them. -/
def allCells : List Pos :=
  (List.range 9).flatMap fun i => (List.range 9).map fun j => (i, j)
/-- Write one cell of a grid, as JS `state[i][j] = v` does on a copy. -/
def setCellG (s : Grid) (i j : ℕ) (v : Option ℕ) : Grid :=
  fun i' j' => if i' = i ∧ j' = j then v else s i' j'
/-- Write one cell of a domain matrix. -/
def setCellD (d : DMat) (i j : ℕ) (l : List ℕ) : DMat :=
  fun i' j' => if i' = i ∧ j' = j then l else d i' j'
/-- `initiate` / `inititationHelper`: filled cells get `fixed = true` and an
empty domain, empty cells get domain `[1,…,9]`.  The `Array.from` scaffolding
initialises every slot to `[]` / `false`; the loops then only visit indices
`< 9`, which the range guard reproduces. -/
def initiate (s : Grid) : Problem where
  state := s
  domain := fun i j =>
    if i < 9 ∧ j < 9 then (if s i j = none then [1, 2, 3, 4, 5, 6, 7, 8, 9] else []) else []
  fixd := fun i j => if i < 9 ∧ j < 9 then (s i j).isSome else false
/-- Membership scan of a seen-list, standing in for the JS `Set.has` /
`Set.add` pattern of `consistent`. -/
def hasDup {α : Type} [DecidableEq α] : List α → Bool
  | [] => false
  | x :: xs => if x ∈ xs then true else hasDup xs
/-- The positions holding value `v`, in the row-major order in which
`consistent` pushes them into its hashmap. -/
def positionsOf (s : Grid) (v : ℕ) : List Pos :=
  allCells.filter fun q => s q.1 q.2 = some v
/-- The per-value body of `consistent`: scanning the positions of one value
with three seen-sets returns false iff the rows, the columns, or the subgrid
keys repeat. -/
def groupConflictFree (l : List Pos) : Bool :=
  !hasDup (l.map Prod.fst) && !hasDup (l.map Prod.snd)
    && !hasDup (l.map fun q => (q.1 / 3, q.2 / 3))
/-- `consistent(problem)`: no value occurs twice in a row, a column or a 3×3
subgrid.  The hashmap keys are exactly the values occurring in the grid;
checking a value once per occurrence instead of once per distinct key does
not change the conjunction. -/
def consistent (p : Problem) : Bool :=
  (allCells.filterMap fun q => p.state q.1 q.2).all fun v =>
    groupConflictFree (positionsOf p.state v)
/-- `isgoal(problem)`: every cell filled, and `consistent`. -/
def isgoal (p : Problem) : Bool :=
  (allCells.all fun q => (p.state q.1 q.2).isSome) && consistent p
/-- The row-major scan shared by both copies of `getNextPosition`:
`for (i = startRow; i < 9; i++) for (j = (i == startRow ? startCol : 0); j < 9; j++)`
returning the first empty cell. -/
def scanFrom (s : Grid) (startRow startCol : ℕ) : Option Pos :=
  (List.range' startRow (9 - startRow)).findSome? fun i =>
    (List.range' (if i = startRow then startCol else 0)
        (9 - (if i = startRow then startCol else 0))).findSome? fun j =>
      if s i j = none then some (i, j) else none
/-- `getNextPosition` of part_000: has the explicit column-overflow
adjustment `if (startCol >= size) { startRow++; startCol = 0; }` before the
scan loop. -/
def getNextPosition (s : Grid) (cur : Option Pos) : Option Pos :=
  let startRow := match cur with | some q => q.1 | none => 0
  let startCol := match cur with | some q => q.2 + 1 | none => 0
  if 9 ≤ startCol then scanFrom s (startRow + 1) 0 else scanFrom s startRow startCol
/-- `getNextPosition` of part_001: same scan, no overflow adjustment. -/
def getNextPosition1 (s : Grid) (cur : Option Pos) : Option Pos :=
  let startRow := match cur with | some q => q.1 | none => 0
  let startCol := match cur with | some q => q.2 + 1 | none => 0
  scanFrom s startRow startCol
/-- `cell.filter(v => v !== value)`. -/
def filterNe (l : List ℕ) (v : ℕ) : List ℕ :=
  l.filter fun w => w != v
/-- One guarded elimination step of `updateDomain`:
`if (d[i][j].includes(value)) d[i][j] = d[i][j].filter(v => v !== value)`. -/
def elimAt (d : DMat) (i j v : ℕ) : DMat :=
  if (d i j).contains v then setCellD d i j (filterNe (d i j) v) else d
/-- `updateDomain(domain, position, value)`: the row pass, the column pass,
the subgrid pass, then the assigned cell's domain is set to `[]`.  The deep
copy of the source is the identity on values; the heap-level non-mutation
claim is handled by the separate `updateDomainH` model below. -/
def updateDomain (d : DMat) (p : Pos) (v : ℕ) : DMat :=
  let d1 := (List.range 9).foldl (fun acc j => elimAt acc p.1 j v) d
  let d2 := (List.range 9).foldl (fun acc i => elimAt acc i p.2 v) d1
  let rs := p.1 / 3 * 3
  let cs := p.2 / 3 * 3
  let d3 := (List.range' rs 3).foldl
    (fun acc i => (List.range' cs 3).foldl (fun acc2 j => elimAt acc2 i j v) acc) d2
  setCellD d3 p.1 p.2 []
/-- The spec-side reading of `consistent`: no two distinct filled in-range
cells sharing a row, a column or a 3×3 block hold the same value. -/
def noTwoShared (s : Grid) : Prop :=
  ∀ i j i' j' v, i < 9 → j < 9 → i' < 9 → j' < 9 → (i, j) ≠ (i', j') →
    s i j = some v → s i' j' = some v →
    ¬(i = i' ∨ j = j' ∨ (i / 3 = i' / 3 ∧ j / 3 = j' / 3))
/-! ### Heap model of `updateDomain` for the non-mutation claim (C5)

JS arrays are heap references.  `updateDomain` deep-copies its input
(`domain.map(row => row.map(cell => [...cell]))`) and then mutates only the
copy: element writes `newDomain[i][j] = …` mutate the fresh row arrays, and
the cell arrays themselves are never mutated in place (`filter` allocates),
so rows are the aliasing level that matters.  The model makes this explicit:
a heap maps row addresses to row contents, a matrix object is a map from row
index to row address, and the copy allocates nine fresh addresses. -/

/-- Heap of row arrays: address to row contents (column to candidate list). -/
abbrev Heap : Type := ℕ → (ℕ → List ℕ)
/-- Mutate one slot of the row array stored at address `a`. -/
def writeCellH (h : Heap) (a j : ℕ) (l : List ℕ) : Heap :=
  fun a' => if a' = a then (fun j' => if j' = j then l else h a j') else h a'
/-- Heap version of the guarded elimination step, writing through address `a`. -/
def elimAtH (h : Heap) (a j v : ℕ) : Heap :=
  if (h a j).contains v then writeCellH h a j (filterNe (h a j) v) else h
/-- Result of the heap-level `updateDomain`: final heap, bumped allocator and
the fresh matrix object. -/
structure HRes where
  heap : Heap
  alloc : ℕ
  mat : ℕ → ℕ
/-- Heap-level `updateDomain`: allocate nine fresh row addresses
`alloc, …, alloc+8` holding copies of the input rows, run the three
elimination passes and the final `newDomain[row][col] = []` through the
fresh addresses, and return the new matrix object.  The input matrix object
`mat` is never written through. -/
def updateDomainH (h : Heap) (alloc : ℕ) (mat : ℕ → ℕ) (p : Pos) (v : ℕ) : HRes :=
  let h0 : Heap := fun a => if alloc ≤ a ∧ a < alloc + 9 then h (mat (a - alloc)) else h a
  let nm : ℕ → ℕ := fun i => alloc + i
  let h1 := (List.range 9).foldl (fun acc j => elimAtH acc (nm p.1) j v) h0
  let h2 := (List.range 9).foldl (fun acc i => elimAtH acc (nm i) p.2 v) h1
  let rs := p.1 / 3 * 3
  let cs := p.2 / 3 * 3
  let h3 := (List.range' rs 3).foldl
    (fun acc i => (List.range' cs 3).foldl (fun acc2 j => elimAtH acc2 (nm i) j v) acc) h2
  ⟨writeCellH h3 (nm p.1) p.2 [], alloc + 9, nm⟩
/-- Read a whole matrix object out of the heap as a value. -/
def readMat (h : Heap) (mat : ℕ → ℕ) : DMat :=
  fun i j => h (mat i) j
/-- The nine fresh heap rows agree with a value-level matrix. -/
abbrev syncR (alloc : ℕ) (hh : Heap) (dd : DMat) : Prop :=
  ∀ i, i < 9 → ∀ j', hh (alloc + i) j' = dd i j'
/-! ### Search nodes, metrics and the expansion functions -/

/-- The `Node` interface: a problem snapshot, a parent back-reference
(`null` for the root) and the `lastAssigned` position. -/
inductive SNode : Type where
  | root (problem : Problem) (lastAssigned : Pos)
  | child (problem : Problem) (parent : SNode) (lastAssigned : Pos)
/-- The node's `problem` field. -/
def SNode.problem : SNode → Problem
  | .root p _ => p
  | .child p _ _ => p
/-- The node's `lastAssigned` field. -/
def SNode.lastAssigned : SNode → Pos
  | .root _ l => l
  | .child _ _ l => l
/-- `getDepth`: length of the parent chain. -/
def getDepth : SNode → ℕ
  | .root _ _ => 0
  | .child _ q _ => getDepth q + 1
/-- The global `metrics` object. -/
structure Metrics where
  nodesExpanded : ℕ
  childrenGenerated : ℕ
  maxDepth : ℕ
  iterations : ℕ
/-- `metrics.reset()`. -/
def Metrics.reset : Metrics :=
  ⟨0, 0, 0, 0⟩
/-- The forward-checking scan: some in-range cell is unassigned in `s` and
has an empty domain in `d` (the `hasEmptyDomain` double loop). -/
def hasEmptyDomainAtUnassigned (s : Grid) (d : DMat) : Bool :=
  (List.range 9).any fun r => (List.range 9).any fun c =>
    (s r c).isNone && (d r c).isEmpty
/-- `getChildren` (part_000): one child per value in the domain of
`lastAssigned`; when the grid is full after the assignment (`nextPosition`
is null) the child keeps the parent's `lastAssigned`.  Metrics: `maxDepth`
is bumped before the loop, `childrenGenerated` after it. -/
def getChildren (parent : SNode) (m : Metrics) : List SNode × Metrics :=
  let row := parent.lastAssigned.1
  let col := parent.lastAssigned.2
  let actions := parent.problem.domain row col
  let nextPosition := getNextPosition parent.problem.state (some parent.lastAssigned)
  let m1 := { m with maxDepth := max m.maxDepth (getDepth parent + 1) }
  let children := actions.map fun v =>
    let newState := setCellG parent.problem.state row col (some v)
    let domain := updateDomain parent.problem.domain (row, col) v
    match nextPosition with
    | none => SNode.child ⟨newState, domain, parent.problem.fixd⟩ parent parent.lastAssigned
    | some np => SNode.child ⟨newState, domain, parent.problem.fixd⟩ parent np
  (children, { m1 with childrenGenerated := m1.childrenGenerated + children.length })
/-- `getChildren_forwarding` (part_000): like `getChildren` but a candidate
assignment is pruned when some unassigned cell of the propagated matrix has
an empty domain. -/
def getChildren_forwarding (parent : SNode) (m : Metrics) : List SNode × Metrics :=
  let row := parent.lastAssigned.1
  let col := parent.lastAssigned.2
  let actions := parent.problem.domain row col
  let nextPosition := getNextPosition parent.problem.state (some parent.lastAssigned)
  let m1 := { m with maxDepth := max m.maxDepth (getDepth parent + 1) }
  let children := actions.filterMap fun v =>
    let newState := setCellG parent.problem.state row col (some v)
    let domain := updateDomain parent.problem.domain (row, col) v
    if hasEmptyDomainAtUnassigned newState domain then none
    else some (match nextPosition with
      | none => SNode.child ⟨newState, domain, parent.problem.fixd⟩ parent parent.lastAssigned
      | some np => SNode.child ⟨newState, domain, parent.problem.fixd⟩ parent np)
  (children, { m1 with childrenGenerated := m1.childrenGenerated + children.length })
/-- `getMRVPosition`: row-major fold keeping the first unassigned cell with
the smallest non-empty domain (`domainSize < minDomainSize && domainSize > 0`,
with `minDomainSize` starting at `Infinity`). -/
def getMRVPosition (p : Problem) : Option Pos :=
  (allCells.foldl (fun (acc : Option (Pos × ℕ)) q =>
    if p.state q.1 q.2 = none then
      let ds := (p.domain q.1 q.2).length
      match acc with
      | none => if 0 < ds then some (q, ds) else none
      | some (b, best) => if ds < best ∧ 0 < ds then some (q, ds) else some (b, best)
    else acc) none).map Prod.fst
/-- The elimination count `getLCV` computes for one value: the row scan plus
the column scan plus the subgrid scan of unassigned cells whose domain
contains the value.  (The scans count the cell `pos` itself and count twice
the peers lying in both the block and the row or column.) -/
def lcvCount (p : Problem) (pos : Pos) (v : ℕ) : ℕ :=
  let rowcol := (List.range 9).foldl (fun c i =>
    let c1 := if p.state pos.1 i = none ∧ (p.domain pos.1 i).contains v then c + 1 else c
    if p.state i pos.2 = none ∧ (p.domain i pos.2).contains v then c1 + 1 else c1) 0
  (List.range' (pos.1 / 3 * 3) 3).foldl (fun c i =>
    (List.range' (pos.2 / 3 * 3) 3).foldl (fun c2 j =>
      if p.state i j = none ∧ (p.domain i j).contains v then c2 + 1 else c2) c) rowcol
/-- Stable insertion used to embed the (stable, ES2019) JS
`Array.prototype.sort` with comparator `(a, b) => a.count - b.count`:
an element goes before the first element with a strictly larger key, after
all earlier elements with a smaller-or-equal key. -/
def insertByKey (key : ℕ → ℕ) (x : ℕ) : List ℕ → List ℕ
  | [] => [x]
  | y :: ys => if key y < key x then y :: insertByKey key x ys else x :: y :: ys
/-- Stable sort by key (insertion sort from the right): the unique stable
ascending reordering, hence the result of the JS sort call. -/
def sortByKey (key : ℕ → ℕ) (l : List ℕ) : List ℕ :=
  l.foldr (insertByKey key) []
/-- `getLCV(problem, pos)`: the values of the domain at `pos`, stably sorted
ascending by their `lcvCount`. -/
def getLCV (p : Problem) (pos : Pos) : List ℕ :=
  sortByKey (lcvCount p pos) (p.domain pos.1 pos.2)
/-- `getChildren_MRV_LCV` (part_000): expand at the MRV position with
LCV-ordered values, forward-checking prune, and the next MRV position (or
the current one when none is left) as the child's `lastAssigned`. -/
def getChildren_MRV_LCV (parent : SNode) (m : Metrics) : List SNode × Metrics :=
  match getMRVPosition parent.problem with
  | none => ([], m)
  | some nextPosition =>
    let m1 := { m with maxDepth := max m.maxDepth (getDepth parent + 1) }
    let actions := getLCV parent.problem nextPosition
    let children := actions.filterMap fun v =>
      let newState := setCellG parent.problem.state nextPosition.1 nextPosition.2 (some v)
      let domain := updateDomain parent.problem.domain nextPosition v
      if hasEmptyDomainAtUnassigned newState domain then none
      else
        let updatedProblem : Problem := ⟨newState, domain, parent.problem.fixd⟩
        some (SNode.child updatedProblem parent
          ((getMRVPosition updatedProblem).getD nextPosition))
    (children, { m1 with childrenGenerated := m1.childrenGenerated + children.length })
/-- The frontier loop shared by the three backtracking entry points:
pop the last node, count it as expanded, discard it if inconsistent, return
it if it is a goal, otherwise append its children.  `fuel` bounds the number
of iterations of the JS `while` loop: `none` means the fuel ran out,
`some none` is the JS `return null` (failure), `some (some n)` is success. -/
def btLoop (expand : SNode → Metrics → List SNode × Metrics) :
    ℕ → List SNode → Metrics → Option (Option SNode) × Metrics
  | 0, _, m => (none, m)
  | fuel + 1, fringe, m =>
    match fringe.getLast? with
    | none => (some none, m)
    | some current =>
      let m1 := { m with nodesExpanded := m.nodesExpanded + 1 }
      if consistent current.problem then
        if isgoal current.problem then (some (some current), m1)
        else
          btLoop expand fuel (fringe.dropLast ++ (expand current m1).1) (expand current m1).2
      else btLoop expand fuel fringe.dropLast m1
/-- `backtack` (part_000): reset metrics, build the problem; if there is no
empty cell, return a fresh root node at `(0,0)` immediately (no consistency
check); otherwise run the loop from the first empty position. -/
def backtack (fuel : ℕ) (s : Grid) : Option (Option SNode) × Metrics :=
  let m := Metrics.reset
  let problem := initiate s
  match getNextPosition s none with
  | none => (some (some (SNode.root problem (0, 0))), m)
  | some firstEmpty => btLoop getChildren fuel [SNode.root problem firstEmpty] m
/-- `backtack_forward` (part_000). -/
def backtack_forward (fuel : ℕ) (s : Grid) : Option (Option SNode) × Metrics :=
  let m := Metrics.reset
  let problem := initiate s
  match getNextPosition s none with
  | none => (some (some (SNode.root problem (0, 0))), m)
  | some firstEmpty => btLoop getChildren_forwarding fuel [SNode.root problem firstEmpty] m
/-- `backtrack_MRV_LCV` (part_000): same skeleton, seeded at the first MRV
position. -/
def backtrack_MRV_LCV (fuel : ℕ) (s : Grid) : Option (Option SNode) × Metrics :=
  let m := Metrics.reset
  let problem := initiate s
  match getMRVPosition problem with
  | none => (some (some (SNode.root problem (0, 0))), m)
  | some firstMRV => btLoop getChildren_MRV_LCV fuel [SNode.root problem firstMRV] m
/-- A search outcome counts as success when it is a returned node (not the
JS `null`, not exhausted fuel). -/
def isSuccess : Option (Option SNode) → Bool
  | some (some _) => true
  | _ => false

/-! ### Simulated annealing model

The only randomness source is `Math.random()`.  Integer draws
`Math.floor(Math.random() * k)` are modelled by an oracle stream consumed at
a running tick, reduced mod `k` (every sequence of in-range draws is
realisable).  The Metropolis test `Math.random() < Math.exp(-delta / T)`
involves floating point; it is abstracted as a boolean oracle stream, and
the temperature — which only feeds that test — is dropped.  Universal
statements below hold for every oracle, hence for the real sampler. -/

/-- Oracle for the random draws of `simulatedAnnealing`. -/
structure SAOracle where
  pick : ℕ → ℕ
  accept : ℕ → Bool

/-- Result record of `simulatedAnnealing`: the returned grid (or `null`),
the final metrics, and a ghost counter of loop steps that actually reached
the swap (used only by specifications, never read by the model). -/
structure SARes where
  result : Option Grid
  metrics : Metrics
  swapTried : ℕ

/-- The nine blocks `(blockRow, blockCol)` in loop order. -/
def blocksIdx : List (ℕ × ℕ) :=
  (List.range 3).flatMap fun br => (List.range 3).map fun bc => (br, bc)

/-- The nine cells of block `(br, bc)` in the order the 3×3 loops visit
them (`r = br*3 + i`, `c = bc*3 + j`). -/
def blockCells (br bc : ℕ) : List Pos :=
  (List.range 3).flatMap fun i => (List.range 3).map fun j => (br * 3 + i, bc * 3 + j)

/-- The values present in a block (the `present` set of
`randomCompleteAssignment`; only membership is ever queried). -/
def presentVals (g : Grid) (br bc : ℕ) : List ℕ :=
  (blockCells br bc).filterMap fun q => g q.1 q.2

/-- The numbers `1..9` missing from a block, ascending. -/
def missingVals (g : Grid) (br bc : ℕ) : List ℕ :=
  (List.range' 1 9).filter fun n => !(presentVals g br bc).contains n

/-- The JS destructuring swap `[l[i], l[j]] = [l[j], l[i]]`. -/
def swapL (l : List ℕ) (i j : ℕ) : List ℕ :=
  (l.set i (l.getD j 0)).set j (l.getD i 0)

/-- Fisher-Yates shuffle of `randomCompleteAssignment`
(`for i = len-1; i > 0; i--` with `j = floor(random * (i+1))`), returning
the shuffled list and the advanced oracle tick. -/
def shuffle (o : SAOracle) (l : List ℕ) (t : ℕ) : List ℕ × ℕ :=
  ((List.range' 1 (l.length - 1)).reverse).foldl
    (fun acc i => (swapL acc.1 i (o.pick acc.2 % (i + 1)), acc.2 + 1)) (l, t)

/-- Fill the empty cells of one block, in cell order, with successive
entries of the shuffled missing list (`missing[idx++]`). -/
def fillBlock (g : Grid) (miss : List ℕ) (br bc : ℕ) : Grid :=
  ((blockCells br bc).foldl (fun (acc : Grid × ℕ) q =>
    if acc.1 q.1 q.2 = none then (setCellG acc.1 q.1 q.2 (some (miss.getD acc.2 0)), acc.2 + 1)
    else acc) (g, 0)).1

/-- Process one block of `randomCompleteAssignment`: compute the missing
values from the current grid, shuffle them, fill the block's empty cells. -/
def rcaStep (o : SAOracle) (acc : Grid × ℕ) (b : ℕ × ℕ) : Grid × ℕ :=
  let sh := shuffle o (missingVals acc.1 b.1 b.2) acc.2
  (fillBlock acc.1 sh.1 b.1 b.2, sh.2)

/-- `randomCompleteAssignment(state, fixed)` (the `fixed` argument is unused
in the source, its parameter is named `_`): fill every block's empty cells
with a shuffle of that block's missing numbers. -/
def randomCompleteAssignment (o : SAOracle) (s : Grid) (t : ℕ) : Grid × ℕ :=
  blocksIdx.foldl (rcaStep o) (s, t)

/-- The seen-set conflict scan of one row of `countConflicts`. -/
def rowConflicts (s : Grid) (i : ℕ) : ℕ :=
  ((List.range 9).foldl (fun (acc : List (Option ℕ) × ℕ) j =>
    (s i j :: acc.1, if acc.1.contains (s i j) then acc.2 + 1 else acc.2)) ([], 0)).2

/-- The seen-set conflict scan of one column of `countConflicts`. -/
def colConflicts (s : Grid) (j : ℕ) : ℕ :=
  ((List.range 9).foldl (fun (acc : List (Option ℕ) × ℕ) i =>
    (s i j :: acc.1, if acc.1.contains (s i j) then acc.2 + 1 else acc.2)) ([], 0)).2

/-- `countConflicts(state)`: row conflicts plus column conflicts, where each
cell whose value was already seen earlier in its row (resp. column)
contributes one. -/
def countConflicts (s : Grid) : ℕ :=
  (List.range 9).foldl (fun c i => c + rowConflicts s i) 0 +
    (List.range 9).foldl (fun c j => c + colConflicts s j) 0

/-- The non-fixed cells of a block, in cell order. -/
def nonFixedCells (fixd : FMat) (br bc : ℕ) : List Pos :=
  (blockCells br bc).filter fun q => !(fixd q.1 q.2)

/-- The main loop of `simulatedAnnealing`
(`for (step = 0; step < maxSteps && currentConflicts > 0; step++)`):
increment `iterations`, pick a block; skip if it has fewer than two
non-fixed cells; pick two cells, skip if they coincide; otherwise swap,
recount conflicts, and accept by `delta < 0 ||` the Metropolis oracle.
Success is returned as soon as the conflict count is zero (in-loop and
post-loop returns coincide with this head test). -/
def saLoop (o : SAOracle) (fixd : FMat) :
    ℕ → Grid → ℕ → Metrics → ℕ → ℕ → SARes
  | 0, cur, conf, m, _, g =>
    if conf = 0 then ⟨some cur, m, g⟩ else ⟨none, m, g⟩
  | steps + 1, cur, conf, m, t, g =>
    if conf = 0 then ⟨some cur, m, g⟩
    else
      let m1 := { m with iterations := m.iterations + 1 }
      let br := o.pick t % 3
      let bc := o.pick (t + 1) % 3
      let cells := nonFixedCells fixd br bc
      if cells.length < 2 then saLoop o fixd steps cur conf m1 (t + 2) g
      else
        let a := cells.getD (o.pick (t + 2) % cells.length) (0, 0)
        let b := cells.getD (o.pick (t + 3) % cells.length) (0, 0)
        if a = b then saLoop o fixd steps cur conf m1 (t + 4) g
        else
          let next := setCellG (setCellG cur a.1 a.2 (cur b.1 b.2)) b.1 b.2 (cur a.1 a.2)
          let nextConf := countConflicts next
          let t' := if nextConf < conf then t + 4 else t + 5
          if nextConf < conf ∨ o.accept (t + 4) = true then
            saLoop o fixd steps next nextConf m1 t' (g + 1)
          else
            saLoop o fixd steps cur conf m1 t' (g + 1)

/-- `simulatedAnnealing(state, fixed, maxSteps)`: reset metrics, seed with a
random complete assignment, return it at once if conflict-free, else run the
loop. -/
def simulatedAnnealing (o : SAOracle) (s : Grid) (fixd : FMat) (maxSteps : ℕ) : SARes :=
  let seeded := randomCompleteAssignment o s 0
  saLoop o fixd maxSteps seeded.1 (countConflicts seeded.1) Metrics.reset seeded.2 0

/-! ### Spec-side definitions

These are written from the specification's words, not from the source; they
are compared against the embedded code. -/

/-- Spec side, C1/C2 hypothesis: every filled cell holds a digit `1..9`. -/
def digitsOKb (s : Grid) : Bool :=
  (List.range 9).all fun i => (List.range 9).all fun j =>
    match s i j with
    | none => true
    | some v => decide (1 ≤ v ∧ v ≤ 9)

/-- Spec side: the grid has at least one empty in-range cell. -/
def hasEmptyCellb (s : Grid) : Bool :=
  (List.range 9).any fun i => (List.range 9).any fun j => (s i j).isNone

/-- One row of a grid as the list of its nine cells. -/
def rowList (s : Grid) (i : ℕ) : List (Option ℕ) :=
  (List.range 9).map fun j => s i j

/-- One column of a grid as the list of its nine cells. -/
def colList (s : Grid) (j : ℕ) : List (Option ℕ) :=
  (List.range 9).map fun i => s i j

/-- One block of a grid as the list of its nine cells. -/
def blockList (s : Grid) (br bc : ℕ) : List (Option ℕ) :=
  (blockCells br bc).map fun q => s q.1 q.2

/-- Spec side, C1 conclusion: full validity — every row, column and 3×3
block holds each digit `1..9` exactly once (hence no empty cell). -/
def fullValid (s : Grid) : Prop :=
  ∀ d, 1 ≤ d → d ≤ 9 →
    (∀ i, i < 9 → (rowList s i).count (some d) = 1) ∧
    (∀ j, j < 9 → (colList s j).count (some d) = 1) ∧
    (∀ br bc, br < 3 → bc < 3 → (blockList s br bc).count (some d) = 1)

/-- Spec side, C7 as claimed: unordered pairs of equal cells in the same
row. -/
def rowPairConflicts (s : Grid) : ℕ :=
  ((List.range 9).map fun i =>
    ((List.range 9).flatMap fun j =>
      (List.range' (j + 1) (8 - j)).map fun j' => (j, j')).countP
        fun q => decide (s i q.1 = s i q.2)).sum

/-- Spec side, C7 as claimed: unordered pairs of equal cells in the same
column. -/
def colPairConflicts (s : Grid) : ℕ :=
  ((List.range 9).map fun j =>
    ((List.range 9).flatMap fun i =>
      (List.range' (i + 1) (8 - i)).map fun i' => (i, i')).countP
        fun q => decide (s q.1 j = s q.2 j)).sum

/-- Spec side, C7 amended: cells whose value already occurs at an earlier
cell of the same row. -/
def rowDupConflicts (s : Grid) : ℕ :=
  ((List.range 9).map fun i =>
    (List.range 9).countP fun j => decide (∃ j', j' < j ∧ s i j' = s i j)).sum

/-- Spec side, C7 amended: cells whose value already occurs at an earlier
cell of the same column. -/
def colDupConflicts (s : Grid) : ℕ :=
  ((List.range 9).map fun j =>
    (List.range 9).countP fun i => decide (∃ i', i' < i ∧ s i' j = s i j)).sum

/-- Spec side, C8 as claimed: the number of domain entries that assigning
`v` at `pos` would eliminate from peer cells — the unassigned cells other
than `pos` sharing its row, column or block whose domain contains `v`. -/
def lcvSpecCount (p : Problem) (pos : Pos) (v : ℕ) : ℕ :=
  (allCells.filter fun q => q ≠ pos ∧
    (q.1 = pos.1 ∨ q.2 = pos.2 ∨ (q.1 / 3 = pos.1 / 3 ∧ q.2 / 3 = pos.2 / 3)) ∧
    p.state q.1 q.2 = none ∧ (p.domain q.1 q.2).contains v).length

/-- Spec side, C8 as claimed: the domain values stably sorted by the
spec's peer-elimination count. -/
def getLCVspec (p : Problem) (pos : Pos) : List ℕ :=
  sortByKey (lcvSpecCount p pos) (p.domain pos.1 pos.2)

/-! ### Concrete inputs for counterexamples and witnesses -/

/-- The fully-filled grid of ones. -/
def allOnesGrid : Grid := fun _ _ => some 1

/-- The completely empty grid. -/
def emptyGrid : Grid := fun _ _ => none

/-- The rotation grid `s i j = (i + j) % 9 + 1`: every row and every column
is a permutation of `1..9`, but blocks repeat values. -/
def rotGrid : Grid := fun i j => some ((i + j) % 9 + 1)

/-- The rotation grid with cell `(0,0)` cleared. -/
def rotMinusGrid : Grid :=
  fun i j => if i = 0 ∧ j = 0 then none else rotGrid i j

/-- Oracle whose draws realise the identity shuffle on the first block of
`rotMinusGrid` (`pick t = 4 - t` makes every Fisher-Yates step swap an index
with itself). -/
def oracleId : SAOracle :=
  ⟨fun t => 4 - t, fun _ => false⟩

/-- Oracle of constant zeros. -/
def oracleZero : SAOracle :=
  ⟨fun _ => 0, fun _ => false⟩

/-- The problem used by the C8 counterexample: everything empty, the cell
`(0,0)` has domain `[1, 2]`; value `1` appears in the domains of the two
row-and-block peers `(0,1)`, `(0,2)`; value `2` appears in the domains of
the three row-only peers `(0,3)`, `(0,4)`, `(0,5)`. -/
def lcvProblem : Problem where
  state := emptyGrid
  domain := fun i j =>
    if i = 0 then
      (if j = 0 then [1, 2] else if j ≤ 2 then [1] else if j ≤ 5 then [2] else [])
    else []
  fixd := fun _ _ => false

/-- Spec side: all filled in-range cells are digits (Prop form). -/
def GridDigits (s : Grid) : Prop :=
  ∀ i j, i < 9 → j < 9 → ∀ v, s i j = some v → 1 ≤ v ∧ v ≤ 9

/-- Spec side: all in-range domain entries are digits. -/
def DomDigits (d : DMat) : Prop :=
  ∀ i j, i < 9 → j < 9 → ∀ v, v ∈ d i j → 1 ≤ v ∧ v ≤ 9

/-- Invariant carried through the backtracking frontiers: digit-valued
state, digit-valued domains, in-range `lastAssigned`. -/
def NodeOK (n : SNode) : Prop :=
  GridDigits n.problem.state ∧ DomDigits n.problem.domain ∧
    n.lastAssigned.1 < 9 ∧ n.lastAssigned.2 < 9

/-- Invariant carried through simulated annealing: every block is a
permutation of `1..9`. -/
def BlockPerm (g : Grid) : Prop :=
  ∀ br bc, br < 3 → bc < 3 → (blockList g br bc).Perm ((List.range' 1 9).map some)

/-- The fill fold of `fillBlock`, over an arbitrary cell list (proof-side
generalisation). -/
def fillFold (miss : List ℕ) (cs : List Pos) (g : Grid) (idx : ℕ) : Grid × ℕ :=
  cs.foldl (fun (acc : Grid × ℕ) q =>
    if acc.1 q.1 q.2 = none then (setCellG acc.1 q.1 q.2 (some (miss.getD acc.2 0)), acc.2 + 1)
    else acc) (g, idx)

/-- The grid carried by a successful backtracking result. -/
def resultState : Option (Option SNode) → Grid
  | some (some n) => n.problem.state
  | _ => emptyGrid

/-- The grid carried by a successful annealing result. -/
def resultGrid (r : SARes) : Grid :=
  r.result.getD emptyGrid

/-! ## Theorems -/

/-! ### Basic lemmas about the scan and the domain passes -/

theorem findSome?_congr {α β : Type} (f g : α → Option β) :
    ∀ l : List α, (∀ x ∈ l, f x = g x) → l.findSome? f = l.findSome? g := by
  intro l
  induction l with
  | nil => intro _; rfl
  | cons x xs ih =>
    intro h
    simp only [List.findSome?_cons, h x (by simp)]
    cases g x with
    | none => exact ih fun y hy => h y (by simp [hy])
    | some b => rfl

theorem scanFrom_overflow (s : Grid) (r c : ℕ) (hc : 9 ≤ c) :
    scanFrom s r c = scanFrom s (r + 1) 0 := by
  by_cases hr : r < 9
  · have h9 : 9 - r = (9 - (r + 1)) + 1 := by omega
    unfold scanFrom
    rw [h9, List.range'_succ r (9 - (r + 1)) 1, List.findSome?_cons]
    have hrow : (List.range' (if r = r then c else 0) (9 - (if r = r then c else 0))).findSome?
        (fun j => if s r j = none then some (r, j) else none) = none := by
      rw [if_pos rfl, show 9 - c = 0 from by omega]
      rfl
    rw [hrow]
    apply findSome?_congr
    intro i hi
    have hir : r + 1 ≤ i := (List.mem_range'_1.mp hi).1
    have h1 : (if i = r then c else 0) = 0 := by
      rw [if_neg]; omega
    rw [h1, ite_self]
  · have h1 : 9 - r = 0 := by omega
    have h2 : 9 - (r + 1) = 0 := by omega
    unfold scanFrom
    rw [h1, h2]
    rfl

/-- C10: the two copies of `getNextPosition` (part_000 with the explicit
column-overflow adjustment, part_001 without) return the same next empty
position on every grid and every current position, including out-of-range
ones: when the start column overflows, part_001's first inner loop simply
runs zero iterations, which is exactly part_000's adjustment. -/
theorem claim_C10 (s : Grid) (cur : Option Pos) :
    getNextPosition s cur = getNextPosition1 s cur := by
  cases cur with
  | none =>
    unfold getNextPosition getNextPosition1
    rfl
  | some q =>
    unfold getNextPosition getNextPosition1
    by_cases h : 9 ≤ q.2 + 1
    · rw [if_pos h, scanFrom_overflow s q.1 (q.2 + 1) h]
    · rw [if_neg h]

theorem filterNe_of_not_contains (l : List ℕ) (v : ℕ) (h : l.contains v = false) :
    filterNe l v = l := by
  apply List.filter_eq_self.mpr
  intro a ha
  have hv : v ∉ l := by
    intro hmem
    have h2 : l.contains v = true := List.elem_iff.mpr hmem
    rw [h] at h2
    exact Bool.false_ne_true h2
  simp only [bne_iff_ne, ne_eq]
  intro heq
  exact hv (heq ▸ ha)

theorem filterNe_idem (l : List ℕ) (v : ℕ) :
    filterNe (filterNe l v) v = filterNe l v := by
  apply List.filter_eq_self.mpr
  intro a ha
  exact (List.mem_filter.mp ha).2

theorem filterNe_subset (l : List ℕ) (v w : ℕ) (h : w ∈ filterNe l v) : w ∈ l :=
  (List.mem_filter.mp h).1

theorem elimAt_apply (d : DMat) (i j v i' j' : ℕ) :
    elimAt d i j v i' j' = if i' = i ∧ j' = j then filterNe (d i j) v else d i' j' := by
  unfold elimAt setCellD
  cases h : (d i j).contains v with
  | true => simp
  | false =>
    rw [if_neg (by simp [h])]
    by_cases hij : i' = i ∧ j' = j
    · rw [if_pos hij, filterNe_of_not_contains _ _ h, hij.1, hij.2]
    · rw [if_neg hij]

theorem rowPass_apply (v r : ℕ) :
    ∀ (js : List ℕ) (d : DMat) (i' j' : ℕ),
      (js.foldl (fun acc j => elimAt acc r j v) d) i' j' =
        if i' = r ∧ j' ∈ js then filterNe (d i' j') v else d i' j' := by
  intro js
  induction js with
  | nil => intro d i' j'; simp
  | cons j js ih =>
    intro d i' j'
    rw [List.foldl_cons, ih]
    by_cases hr : i' = r
    · subst hr
      by_cases hjs : j' ∈ js
      · rw [if_pos ⟨rfl, hjs⟩, if_pos ⟨rfl, by simp [hjs]⟩, elimAt_apply]
        by_cases hj : j' = j
        · subst hj; rw [if_pos ⟨rfl, rfl⟩, filterNe_idem]
        · rw [if_neg (by simp [hj])]
      · rw [if_neg (by simp [hjs]), elimAt_apply]
        by_cases hj : j' = j
        · subst hj
          rw [if_pos ⟨rfl, rfl⟩, if_pos ⟨rfl, by simp⟩]
        · rw [if_neg (by simp [hj]), if_neg (by simp [hj, hjs])]
    · rw [if_neg (by simp [hr]), if_neg (by simp [hr]), elimAt_apply,
        if_neg (by simp [hr])]

theorem colPass_apply (v c : ℕ) :
    ∀ (is : List ℕ) (d : DMat) (i' j' : ℕ),
      (is.foldl (fun acc i => elimAt acc i c v) d) i' j' =
        if j' = c ∧ i' ∈ is then filterNe (d i' j') v else d i' j' := by
  intro is
  induction is with
  | nil => intro d i' j'; simp
  | cons i is ih =>
    intro d i' j'
    rw [List.foldl_cons, ih]
    by_cases hc : j' = c
    · subst hc
      by_cases his : i' ∈ is
      · rw [if_pos ⟨rfl, his⟩, if_pos ⟨rfl, by simp [his]⟩, elimAt_apply]
        by_cases hi : i' = i
        · subst hi; rw [if_pos ⟨rfl, rfl⟩, filterNe_idem]
        · rw [if_neg (by simp [hi])]
      · rw [if_neg (by simp [his]), elimAt_apply]
        by_cases hi : i' = i
        · subst hi
          rw [if_pos ⟨rfl, rfl⟩, if_pos ⟨rfl, by simp⟩]
        · rw [if_neg (by simp [hi]), if_neg (by simp [hi, his])]
    · rw [if_neg (by simp [hc]), if_neg (by simp [hc]), elimAt_apply,
        if_neg (by simp [hc])]

theorem blockPass_apply (v : ℕ) (js : List ℕ) :
    ∀ (is : List ℕ) (d : DMat) (i' j' : ℕ),
      (is.foldl (fun acc i => js.foldl (fun acc2 j => elimAt acc2 i j v) acc) d) i' j' =
        if i' ∈ is ∧ j' ∈ js then filterNe (d i' j') v else d i' j' := by
  intro is
  induction is with
  | nil => intro d i' j'; simp
  | cons i is ih =>
    intro d i' j'
    rw [List.foldl_cons, ih, rowPass_apply]
    by_cases hi : i' = i <;> by_cases hjs : j' ∈ js <;> by_cases his : i' ∈ is <;>
      simp_all [filterNe_idem]

/-- Pointwise description of `updateDomain`: the assigned cell becomes `[]`;
cells touched by the row, column or subgrid pass are filtered; all others
are untouched. -/
theorem updateDomain_apply (d : DMat) (p : Pos) (v : ℕ) (i' j' : ℕ) :
    updateDomain d p v i' j' =
      if i' = p.1 ∧ j' = p.2 then []
      else if (i' = p.1 ∧ j' < 9) ∨ (j' = p.2 ∧ i' < 9) ∨
          (p.1 / 3 * 3 ≤ i' ∧ i' < p.1 / 3 * 3 + 3 ∧ p.2 / 3 * 3 ≤ j' ∧ j' < p.2 / 3 * 3 + 3)
        then filterNe (d i' j') v
      else d i' j' := by
  unfold updateDomain setCellD
  by_cases hp : i' = p.1 ∧ j' = p.2
  · rw [if_pos hp, if_pos hp]
  · rw [if_neg hp, if_neg hp, blockPass_apply, colPass_apply, rowPass_apply]
    simp only [List.mem_range, List.mem_range'_1]
    split_ifs with h1 h2 h3 h4 h5 h6 h7 h8 h9 h10 h11 h12 <;>
      simp_all [filterNe_idem] <;> omega

theorem updateDomain_subset (d : DMat) (p : Pos) (v w : ℕ) (i j : ℕ)
    (h : w ∈ updateDomain d p v i j) : w ∈ d i j := by
  rw [updateDomain_apply] at h
  by_cases h1 : i = p.1 ∧ j = p.2
  · rw [if_pos h1] at h; exact absurd h (List.not_mem_nil w)
  · rw [if_neg h1] at h
    split at h
    · exact filterNe_subset _ _ _ h
    · exact h

/-- C4: `updateDomain` empties the assigned cell's domain, removes the value
from every other cell of the same row, column or 3×3 block, and leaves every
unrelated cell untouched. -/
theorem claim_C4 (d : DMat) (p : Pos) (v : ℕ) (hr : p.1 < 9) (hc : p.2 < 9) :
    updateDomain d p v p.1 p.2 = [] ∧
    ∀ i j, i < 9 → j < 9 → (i, j) ≠ p →
      ((i = p.1 ∨ j = p.2 ∨ (i / 3 = p.1 / 3 ∧ j / 3 = p.2 / 3)) →
        updateDomain d p v i j = (d i j).filter fun w => w != v) ∧
      (¬(i = p.1 ∨ j = p.2 ∨ (i / 3 = p.1 / 3 ∧ j / 3 = p.2 / 3)) →
        updateDomain d p v i j = d i j) := by
  constructor
  · rw [updateDomain_apply, if_pos ⟨rfl, rfl⟩]
  · intro i j hi hj hne
    have hne' : ¬(i = p.1 ∧ j = p.2) := by
      intro h
      exact hne (by rw [h.1, h.2])
    constructor
    · intro hshare
      have hcond : (i = p.1 ∧ j < 9) ∨ (j = p.2 ∧ i < 9) ∨
          (p.1 / 3 * 3 ≤ i ∧ i < p.1 / 3 * 3 + 3 ∧ p.2 / 3 * 3 ≤ j ∧ j < p.2 / 3 * 3 + 3) := by
        rcases hshare with h | h | h
        · exact Or.inl ⟨h, hj⟩
        · exact Or.inr (Or.inl ⟨h, hi⟩)
        · obtain ⟨ha, hb⟩ := h
          exact Or.inr (Or.inr (by omega))
      rw [updateDomain_apply, if_neg hne', if_pos hcond]
      rfl
    · intro hshare
      have hcond : ¬((i = p.1 ∧ j < 9) ∨ (j = p.2 ∧ i < 9) ∨
          (p.1 / 3 * 3 ≤ i ∧ i < p.1 / 3 * 3 + 3 ∧ p.2 / 3 * 3 ≤ j ∧ j < p.2 / 3 * 3 + 3)) := by
        intro hcontra
        apply hshare
        rcases hcontra with h | h | h
        · exact Or.inl h.1
        · exact Or.inr (Or.inl h.1)
        · obtain ⟨ha, hb, hc', hd⟩ := h
          exact Or.inr (Or.inr (by omega))
      rw [updateDomain_apply, if_neg hne', if_neg hcond]

/-- Witness for C4 at a concrete in-range position. -/
theorem claim_C4_witness :
    (4 : ℕ) < 9 ∧ (7 : ℕ) < 9 ∧
    (updateDomain (fun _ _ => [1, 2, 3]) (4, 7) 2 4 7 = [] ∧
    ∀ i j, i < 9 → j < 9 → (i, j) ≠ ((4 : ℕ), (7 : ℕ)) →
      ((i = 4 ∨ j = 7 ∨ (i / 3 = 4 / 3 ∧ j / 3 = 7 / 3)) →
        updateDomain (fun _ _ => [1, 2, 3]) (4, 7) 2 i j = [1, 2, 3].filter fun w => w != 2) ∧
      (¬(i = 4 ∨ j = 7 ∨ (i / 3 = 4 / 3 ∧ j / 3 = 7 / 3)) →
        updateDomain (fun _ _ => [1, 2, 3]) (4, 7) 2 i j = [1, 2, 3])) :=
  ⟨by decide, by decide, claim_C4 (fun _ _ => [1, 2, 3]) (4, 7) 2 (by decide) (by decide)⟩

/-! ### The consistency checker (C6) -/

theorem allCells_mem (q : Pos) : q ∈ allCells ↔ q.1 < 9 ∧ q.2 < 9 := by
  obtain ⟨a, b⟩ := q
  simp only [allCells, List.mem_flatMap, List.mem_map, List.mem_range, Prod.mk.injEq]
  constructor
  · rintro ⟨i, hi, j, hj, h1, h2⟩
    exact ⟨h1 ▸ hi, h2 ▸ hj⟩
  · rintro ⟨ha, hb⟩
    exact ⟨a, ha, b, hb, rfl, rfl⟩

theorem allCells_nodup : allCells.Nodup := by
  apply List.nodup_bind.mpr
  constructor
  · intro i _
    refine (List.nodup_range 9).map ?_
    intro a b h
    simpa using congrArg Prod.snd h
  · apply List.Pairwise.imp ?_ (List.nodup_range 9)
    intro a b hab
    simp only [List.Disjoint, List.mem_map, List.mem_range]
    rintro x ⟨j, _, rfl⟩ ⟨j', _, h⟩
    exact hab (congrArg Prod.fst h).symm

theorem hasDup_iff {α : Type} [DecidableEq α] (l : List α) :
    hasDup l = true ↔ ¬ l.Nodup := by
  induction l with
  | nil => simp [hasDup]
  | cons x xs ih =>
    by_cases hx : x ∈ xs
    · simp [hasDup, hx, List.nodup_cons]
    · simp [hasDup, hx, List.nodup_cons, ih]

theorem groupConflictFree_iff (l : List Pos) :
    groupConflictFree l = true ↔
      (l.map Prod.fst).Nodup ∧ (l.map Prod.snd).Nodup ∧
        (l.map fun q => (q.1 / 3, q.2 / 3)).Nodup := by
  simp [groupConflictFree, Bool.and_eq_true, Bool.not_eq_true', ← Bool.not_eq_true,
    hasDup_iff, not_not, and_assoc]

theorem positionsOf_nodup (s : Grid) (v : ℕ) : (positionsOf s v).Nodup :=
  allCells_nodup.filter _

theorem positionsOf_mem (s : Grid) (v : ℕ) (q : Pos) :
    q ∈ positionsOf s v ↔ (q.1 < 9 ∧ q.2 < 9) ∧ s q.1 q.2 = some v := by
  simp only [positionsOf, List.mem_filter, allCells_mem, decide_eq_true_eq]

theorem consistent_iff (p : Problem) : consistent p = true ↔ noTwoShared p.state := by
  constructor
  · intro hc
    intro i j i' j' v hi hj hi' hj' hne hv hv' hshare
    have hvmem : v ∈ allCells.filterMap fun q => p.state q.1 q.2 := by
      apply List.mem_filterMap.mpr
      exact ⟨(i, j), (allCells_mem (i, j)).mpr ⟨hi, hj⟩, hv⟩
    have hgood := List.all_eq_true.mp hc v hvmem
    obtain ⟨h1, h2, h3⟩ := (groupConflictFree_iff _).mp hgood
    have hm : (i, j) ∈ positionsOf p.state v := (positionsOf_mem _ _ _).mpr ⟨⟨hi, hj⟩, hv⟩
    have hm' : (i', j') ∈ positionsOf p.state v := (positionsOf_mem _ _ _).mpr ⟨⟨hi', hj'⟩, hv'⟩
    rcases hshare with h | h | h
    · have := (List.nodup_map_iff_inj_on (positionsOf_nodup p.state v)).mp h1
        (i, j) hm (i', j') hm' h
      exact hne this
    · have := (List.nodup_map_iff_inj_on (positionsOf_nodup p.state v)).mp h2
        (i, j) hm (i', j') hm' h
      exact hne this
    · have := (List.nodup_map_iff_inj_on (positionsOf_nodup p.state v)).mp h3
        (i, j) hm (i', j') hm' (by simp [h.1, h.2])
      exact hne this
  · intro hpred
    apply List.all_eq_true.mpr
    intro v _
    apply (groupConflictFree_iff _).mpr
    have key : ∀ (f : Pos → ℕ × ℕ)
        (_ : ∀ a b : Pos, a.1 < 9 → a.2 < 9 → b.1 < 9 → b.2 < 9 →
          p.state a.1 a.2 = some v → p.state b.1 b.2 = some v → a ≠ b → f a ≠ f b),
        ((positionsOf p.state v).map f).Nodup := by
      intro f hf
      apply (List.nodup_map_iff_inj_on (positionsOf_nodup p.state v)).mpr
      intro a ha b hb hfab
      by_contra hab
      obtain ⟨⟨ha1, ha2⟩, hav⟩ := (positionsOf_mem _ _ _).mp ha
      obtain ⟨⟨hb1, hb2⟩, hbv⟩ := (positionsOf_mem _ _ _).mp hb
      exact hf a b ha1 ha2 hb1 hb2 hav hbv hab hfab
    refine ⟨?_, ?_, ?_⟩
    · have := key (fun q => (q.1, 0)) ?_
      · have hinj : ∀ (l : List Pos), (l.map fun q => (q.1, (0 : ℕ))).Nodup → (l.map Prod.fst).Nodup := by
          intro l h
          have : (l.map fun q => (q.1, (0 : ℕ))) = (l.map Prod.fst).map fun x => (x, (0 : ℕ)) := by
            simp [List.map_map]
          rw [this] at h
          exact h.of_map _
        exact hinj _ this
      · intro a b ha1 ha2 hb1 hb2 hav hbv hab hfa
        obtain ⟨x, y⟩ := a
        obtain ⟨x', y'⟩ := b
        have hx : x = x' := by simpa using congrArg Prod.fst hfa
        exact hpred x y x' y' v ha1 ha2 hb1 hb2 (by simpa using hab) hav hbv (Or.inl hx)
    · have := key (fun q => (q.2, 0)) ?_
      · have hinj : ∀ (l : List Pos), (l.map fun q => (q.2, (0 : ℕ))).Nodup → (l.map Prod.snd).Nodup := by
          intro l h
          have : (l.map fun q => (q.2, (0 : ℕ))) = (l.map Prod.snd).map fun x => (x, (0 : ℕ)) := by
            simp [List.map_map]
          rw [this] at h
          exact h.of_map _
        exact hinj _ this
      · intro a b ha1 ha2 hb1 hb2 hav hbv hab hfa
        obtain ⟨x, y⟩ := a
        obtain ⟨x', y'⟩ := b
        have hy : y = y' := by simpa using congrArg Prod.fst hfa
        exact hpred x y x' y' v ha1 ha2 hb1 hb2 (by simpa using hab) hav hbv (Or.inr (Or.inl hy))
    · apply key
      intro a b ha1 ha2 hb1 hb2 hav hbv hab hfa
      obtain ⟨x, y⟩ := a
      obtain ⟨x', y'⟩ := b
      have h1 : x / 3 = x' / 3 := by simpa using congrArg Prod.fst hfa
      have h2 : y / 3 = y' / 3 := by simpa using congrArg Prod.snd hfa
      exact hpred x y x' y' v ha1 ha2 hb1 hb2 (by simpa using hab) hav hbv
        (Or.inr (Or.inr ⟨h1, h2⟩))

/-- C6: `consistent` returns true iff no two distinct filled cells sharing a
row, a column or a 3×3 block hold the same value, and it depends on the Grid
alone — swapping in any other Domain Matrix or Fixed Mask leaves its result
unchanged. -/
theorem claim_C6 (p : Problem) :
    (consistent p = true ↔ noTwoShared p.state) ∧
    ∀ d' f', consistent ⟨p.state, d', f'⟩ = consistent p :=
  ⟨consistent_iff p, fun _ _ => rfl⟩

theorem writeCellH_ne (h : Heap) (a j : ℕ) (l : List ℕ) (b : ℕ) (hb : b ≠ a) :
    writeCellH h a j l b = h b := by
  unfold writeCellH
  rw [if_neg hb]

theorem elimAtH_ne (h : Heap) (a j v b : ℕ) (hb : b ≠ a) : elimAtH h a j v b = h b := by
  unfold elimAtH
  split
  · exact writeCellH_ne h a j _ b hb
  · rfl

theorem foldl_heap_ne {β : Type} (step : Heap → β → Heap) (b : ℕ) :
    ∀ (l : List β) (acc : Heap), (∀ hh x, x ∈ l → step hh x b = hh b) →
      (l.foldl step acc) b = acc b := by
  intro l
  induction l with
  | nil => intro acc _; rfl
  | cons x xs ih =>
    intro acc hstep
    rw [List.foldl_cons, ih _ fun hh y hy => hstep hh y (by simp [hy])]
    exact hstep acc x (by simp)

/-- Every write of `updateDomainH` lands at a fresh address `≥ alloc`:
addresses below the allocator — in particular the rows of the input matrix,
when they were allocated earlier — are untouched. -/
theorem updateDomainH_low (h : Heap) (alloc : ℕ) (mat : ℕ → ℕ) (p : Pos) (v : ℕ)
    (b : ℕ) (hb : b < alloc) :
    (updateDomainH h alloc mat p v).heap b = h b := by
  dsimp only [updateDomainH]
  rw [writeCellH_ne _ _ _ _ _ (by omega)]
  rw [foldl_heap_ne _ _ _ _ (fun hh x hx => ?side1)]
  rw [foldl_heap_ne _ _ _ _ (fun hh x hx => elimAtH_ne hh _ _ _ _ (by omega))]
  rw [foldl_heap_ne _ _ _ _ (fun hh x hx => elimAtH_ne hh _ _ _ _ (by omega))]
  · rw [if_neg (by omega)]
  case side1 =>
    exact foldl_heap_ne _ _ _ _ (fun hh2 y hy => elimAtH_ne hh2 _ _ _ _ (by omega))

theorem foldl_heap_sync {β : Type} (stepH : Heap → β → Heap) (stepD : DMat → β → DMat)
    (R : Heap → DMat → Prop)
    : ∀ (l : List β) (hh : Heap) (dd : DMat),
      (∀ x ∈ l, ∀ hh' dd', R hh' dd' → R (stepH hh' x) (stepD dd' x)) →
      R hh dd → (R (l.foldl stepH hh) (l.foldl stepD dd)) := by
  intro l
  induction l with
  | nil => intro hh dd _ hR; exact hR
  | cons x xs ih =>
    intro hh dd hstep hR
    rw [List.foldl_cons, List.foldl_cons]
    exact ih _ _ (fun y hy => hstep y (by simp [hy]))
      (hstep x (by simp) hh dd hR)

/-- Parallel-step lemma: one heap-level elimination at row address
`alloc + r` tracks one value-level elimination at row `r`, on the nine
fresh rows. -/
theorem writeCellH_apply (h : Heap) (a j : ℕ) (l : List ℕ) (a' j' : ℕ) :
    writeCellH h a j l a' j' = if a' = a then (if j' = j then l else h a j') else h a' j' := by
  unfold writeCellH
  by_cases h1 : a' = a <;> simp [h1]

theorem elimAtH_apply (h : Heap) (a j v a' j' : ℕ) :
    elimAtH h a j v a' j' =
      if (h a j).contains v then
        (if a' = a then (if j' = j then filterNe (h a j) v else h a j') else h a' j')
      else h a' j' := by
  unfold elimAtH
  by_cases hg : (h a j).contains v
  · rw [if_pos hg, if_pos hg, writeCellH_apply]
  · rw [if_neg hg, if_neg hg]

theorem setCellD_apply (d : DMat) (i j : ℕ) (l : List ℕ) (i' j' : ℕ) :
    setCellD d i j l i' j' = if i' = i ∧ j' = j then l else d i' j' := rfl

/-- Parallel-step lemma: one heap-level elimination at row address
`alloc + r` tracks one value-level elimination at row `r`, on the nine
fresh rows. -/
theorem elimAtH_sync (alloc r j v : ℕ) (hr : r < 9) (hh : Heap) (dd : DMat)
    (hsync : ∀ i, i < 9 → ∀ j', hh (alloc + i) j' = dd i j') :
    ∀ i, i < 9 → ∀ j', (elimAtH hh (alloc + r) j v) (alloc + i) j' = elimAt dd r j v i j' := by
  intro i hi j'
  rw [elimAt_apply, elimAtH_apply, hsync r hr j]
  by_cases hg : (dd r j).contains v
  · rw [if_pos hg]
    by_cases hieq : i = r
    · subst hieq
      rw [if_pos rfl]
      by_cases hj : j' = j
      · rw [if_pos hj, if_pos ⟨rfl, hj⟩]
      · rw [if_neg hj, if_neg (by simp [hj])]
        exact hsync i hi j'
    · rw [if_neg (by omega), if_neg (by simp [hieq])]
      exact hsync i hi j'
  · rw [if_neg hg, hsync i hi j']
    by_cases hij : i = r ∧ j' = j
    · rw [if_pos hij, hij.1, hij.2, filterNe_of_not_contains _ _ (by simpa using hg)]
    · rw [if_neg hij]

/-- The heap-level result, read back as a value, equals the pure
`updateDomain` applied to the input read back as a value. -/
theorem updateDomainH_read (h : Heap) (alloc : ℕ) (mat : ℕ → ℕ) (p : Pos) (v : ℕ)
    (hp1 : p.1 < 9) :
    ∀ i, i < 9 → ∀ j,
      readMat (updateDomainH h alloc mat p v).heap (updateDomainH h alloc mat p v).mat i j =
        updateDomain (readMat h mat) p v i j := by
  have hsync : ∀ i, i < 9 → ∀ j',
      (fun a => if alloc ≤ a ∧ a < alloc + 9 then h (mat (a - alloc)) else h a) (alloc + i) j' =
        readMat h mat i j' := by
    intro i hi j'
    simp only
    rw [if_pos (by omega)]
    simp [readMat]
  have h1 : syncR alloc ((List.range 9).foldl
        (fun acc j => elimAtH acc (alloc + p.1) j v)
        (fun a => if alloc ≤ a ∧ a < alloc + 9 then h (mat (a - alloc)) else h a))
      ((List.range 9).foldl (fun acc j => elimAt acc p.1 j v) (readMat h mat)) := by
    apply foldl_heap_sync _ _ (syncR alloc) _ _ _ ?_ hsync
    intro x _ hh' dd' hR
    exact elimAtH_sync alloc p.1 x v hp1 hh' dd' hR
  have h2 : syncR alloc ((List.range 9).foldl (fun acc i => elimAtH acc (alloc + i) p.2 v)
        ((List.range 9).foldl (fun acc j => elimAtH acc (alloc + p.1) j v)
          (fun a => if alloc ≤ a ∧ a < alloc + 9 then h (mat (a - alloc)) else h a)))
      ((List.range 9).foldl (fun acc i => elimAt acc i p.2 v)
        ((List.range 9).foldl (fun acc j => elimAt acc p.1 j v) (readMat h mat))) := by
    apply foldl_heap_sync _ _ (syncR alloc) _ _ _ ?_ h1
    intro x hx hh' dd' hR
    exact elimAtH_sync alloc x p.2 v (List.mem_range.mp hx) hh' dd' hR
  have h3 : syncR alloc ((List.range' (p.1 / 3 * 3) 3).foldl
        (fun acc i => (List.range' (p.2 / 3 * 3) 3).foldl
          (fun acc2 j => elimAtH acc2 (alloc + i) j v) acc)
        ((List.range 9).foldl (fun acc i => elimAtH acc (alloc + i) p.2 v)
          ((List.range 9).foldl (fun acc j => elimAtH acc (alloc + p.1) j v)
            (fun a => if alloc ≤ a ∧ a < alloc + 9 then h (mat (a - alloc)) else h a))))
      ((List.range' (p.1 / 3 * 3) 3).foldl
        (fun acc i => (List.range' (p.2 / 3 * 3) 3).foldl
          (fun acc2 j => elimAt acc2 i j v) acc)
        ((List.range 9).foldl (fun acc i => elimAt acc i p.2 v)
          ((List.range 9).foldl (fun acc j => elimAt acc p.1 j v) (readMat h mat)))) := by
    apply foldl_heap_sync _ _ (syncR alloc) _ _ _ ?_ h2
    intro x hx hh' dd' hR
    have hx9 : x < 9 := by
      have := List.mem_range'_1.mp hx
      omega
    apply foldl_heap_sync _ _ (syncR alloc) _ _ _ ?_ hR
    intro y _ hh2 dd2 hR2
    exact elimAtH_sync alloc x y v hx9 hh2 dd2 hR2
  intro i hi j
  show (updateDomainH h alloc mat p v).heap (alloc + i) j = _
  dsimp only [updateDomainH, updateDomain]
  rw [writeCellH_apply, setCellD_apply]
  by_cases hieq : i = p.1
  · subst hieq
    rw [if_pos rfl]
    by_cases hj : j = p.2
    · rw [if_pos hj, if_pos ⟨rfl, hj⟩]
    · rw [if_neg hj, if_neg (by simp [hj])]
      exact h3 _ hi j
  · rw [if_neg (by omega), if_neg (by simp [hieq])]
    exact h3 i hi j

/-- `updateDomain`'s output cell `(i,j)` depends only on the input cell
`(i,j)` — immediate from the pointwise description. -/
theorem updateDomain_congr_cell (d d' : DMat) (p : Pos) (v : ℕ) (i j : ℕ)
    (h : d i j = d' i j) : updateDomain d p v i j = updateDomain d' p v i j := by
  rw [updateDomain_apply, updateDomain_apply, h]

/-- C5: `updateDomain` never mutates its input matrix.  In the heap model,
with the input matrix rows allocated below the allocator, (a) every input
row reads back unchanged after the call, and (b) calling twice in sequence
with the same matrix yields value-equal outputs (both equal the pure
function of the input values). -/
theorem claim_C5 (h : Heap) (alloc : ℕ) (mat : ℕ → ℕ) (p : Pos) (v : ℕ)
    (hfresh : ∀ i, i < 9 → mat i < alloc) (hp1 : p.1 < 9) :
    (∀ i, i < 9 → ∀ j, (updateDomainH h alloc mat p v).heap (mat i) j = h (mat i) j) ∧
    (∀ i, i < 9 → ∀ j,
      readMat (updateDomainH (updateDomainH h alloc mat p v).heap
          (updateDomainH h alloc mat p v).alloc mat p v).heap
        (updateDomainH (updateDomainH h alloc mat p v).heap
          (updateDomainH h alloc mat p v).alloc mat p v).mat i j =
      readMat (updateDomainH h alloc mat p v).heap (updateDomainH h alloc mat p v).mat i j) := by
  have hunch : ∀ i, i < 9 → ∀ j, (updateDomainH h alloc mat p v).heap (mat i) j = h (mat i) j := by
    intro i hi j
    rw [updateDomainH_low h alloc mat p v (mat i) (hfresh i hi)]
  refine ⟨hunch, ?_⟩
  intro i hi j
  rw [updateDomainH_read _ _ mat p v hp1 i hi j, updateDomainH_read _ _ mat p v hp1 i hi j]
  apply updateDomain_congr_cell
  rw [readMat, readMat, hunch i hi j]

/-- Witness for C5: a concrete heap with the matrix rows at addresses
`0,…,8` and the allocator at `9`. -/
theorem claim_C5_witness :
    ((∀ i, i < 9 → (fun i => i) i < 9) ∧ ((2 : ℕ), (3 : ℕ)).1 < 9) ∧
    ((∀ i, i < 9 → ∀ j, (updateDomainH (fun _ _ => [5]) 9 (fun i => i) (2, 3) 5).heap i j =
        (fun _ _ => [5] : Heap) i j) ∧
    (∀ i, i < 9 → ∀ j,
      readMat (updateDomainH (updateDomainH (fun _ _ => [5]) 9 (fun i => i) (2, 3) 5).heap
          (updateDomainH (fun _ _ => [5]) 9 (fun i => i) (2, 3) 5).alloc (fun i => i) (2, 3) 5).heap
        (updateDomainH (updateDomainH (fun _ _ => [5]) 9 (fun i => i) (2, 3) 5).heap
          (updateDomainH (fun _ _ => [5]) 9 (fun i => i) (2, 3) 5).alloc (fun i => i) (2, 3) 5).mat i j =
      readMat (updateDomainH (fun _ _ => [5]) 9 (fun i => i) (2, 3) 5).heap
        (updateDomainH (fun _ _ => [5]) 9 (fun i => i) (2, 3) 5).mat i j)) :=
  ⟨⟨by decide, by decide⟩,
    claim_C5 (fun _ _ => [5]) 9 (fun i => i) (2, 3) 5 (fun i hi => hi) (by decide)⟩


/-! ### Forward-checking children never expose an empty domain (C3) -/

theorem hasEmpty_false_iff (s : Grid) (d : DMat) :
    hasEmptyDomainAtUnassigned s d = false ↔
      ∀ r c, r < 9 → c < 9 → s r c = none → d r c ≠ [] := by
  unfold hasEmptyDomainAtUnassigned
  constructor
  · intro h r c hr hc hnone hempty
    have htrue : ((List.range 9).any fun r => (List.range 9).any fun c =>
        (s r c).isNone && (d r c).isEmpty) = true := by
      apply List.any_eq_true.mpr
      refine ⟨r, List.mem_range.mpr hr, List.any_eq_true.mpr
        ⟨c, List.mem_range.mpr hc, ?_⟩⟩
      simp [hnone, hempty]
    rw [h] at htrue
    exact Bool.false_ne_true htrue
  · intro h
    apply Bool.eq_false_iff.mpr
    intro hcontra
    obtain ⟨r, hr, hin⟩ := List.any_eq_true.mp hcontra
    obtain ⟨c, hc, hbc⟩ := List.any_eq_true.mp hin
    rw [Bool.and_eq_true] at hbc
    exact h r c (List.mem_range.mp hr) (List.mem_range.mp hc)
      (Option.isNone_iff_eq_none.mp hbc.1) (List.isEmpty_iff.mp hbc.2)

/-- Shape of a member of `getChildren_forwarding`: it comes from a domain
value whose forward-checking scan passed, and carries the assigned state and
propagated domain. -/
theorem mem_getChildren_forwarding (parent : SNode) (m : Metrics) (c : SNode)
    (hc : c ∈ (getChildren_forwarding parent m).1) :
    ∃ v ∈ parent.problem.domain parent.lastAssigned.1 parent.lastAssigned.2,
      hasEmptyDomainAtUnassigned
        (setCellG parent.problem.state parent.lastAssigned.1 parent.lastAssigned.2 (some v))
        (updateDomain parent.problem.domain (parent.lastAssigned.1, parent.lastAssigned.2) v)
          = false ∧
      c.problem = ⟨setCellG parent.problem.state parent.lastAssigned.1 parent.lastAssigned.2
          (some v),
        updateDomain parent.problem.domain (parent.lastAssigned.1, parent.lastAssigned.2) v,
        parent.problem.fixd⟩ := by
  dsimp only [getChildren_forwarding] at hc
  obtain ⟨v, hv, hf⟩ := List.mem_filterMap.mp hc
  refine ⟨v, hv, ?_⟩
  by_cases hg : hasEmptyDomainAtUnassigned
      (setCellG parent.problem.state parent.lastAssigned.1 parent.lastAssigned.2 (some v))
      (updateDomain parent.problem.domain (parent.lastAssigned.1, parent.lastAssigned.2) v)
  · rw [if_pos hg] at hf
    exact absurd hf (by simp)
  · rw [if_neg hg] at hf
    refine ⟨Bool.eq_false_iff.mpr hg, ?_⟩
    cases hnp : getNextPosition parent.problem.state (some parent.lastAssigned) with
    | none =>
      rw [hnp] at hf
      cases hf
      rfl
    | some np =>
      rw [hnp] at hf
      cases hf
      rfl

/-- Shape of a member of `getChildren_MRV_LCV`. -/
theorem mem_getChildren_MRV_LCV (parent : SNode) (m : Metrics) (c : SNode)
    (hc : c ∈ (getChildren_MRV_LCV parent m).1) :
    ∃ np, getMRVPosition parent.problem = some np ∧
    ∃ v ∈ getLCV parent.problem np,
      hasEmptyDomainAtUnassigned
        (setCellG parent.problem.state np.1 np.2 (some v))
        (updateDomain parent.problem.domain np v) = false ∧
      c.problem = ⟨setCellG parent.problem.state np.1 np.2 (some v),
        updateDomain parent.problem.domain np v, parent.problem.fixd⟩ := by
  unfold getChildren_MRV_LCV at hc
  cases hmrv : getMRVPosition parent.problem with
  | none =>
    rw [hmrv] at hc
    exact absurd hc (by simp)
  | some np =>
    rw [hmrv] at hc
    dsimp only at hc
    obtain ⟨v, hv, hf⟩ := List.mem_filterMap.mp hc
    refine ⟨np, rfl, v, hv, ?_⟩
    by_cases hg : hasEmptyDomainAtUnassigned
        (setCellG parent.problem.state np.1 np.2 (some v))
        (updateDomain parent.problem.domain np v)
    · rw [if_pos hg] at hf
      exact absurd hf (by simp)
    · rw [if_neg hg] at hf
      cases hf
      exact ⟨Bool.eq_false_iff.mpr hg, rfl⟩

/-- C3: every child generated by `getChildren_forwarding` or
`getChildren_MRV_LCV` has no unassigned in-range cell with an empty domain,
and a candidate value whose propagated matrix fails the forward check
produces no child (no generated child assigns it). -/
theorem claim_C3 (parent : SNode) (m : Metrics) :
    (∀ c ∈ (getChildren_forwarding parent m).1,
      ∀ r c', r < 9 → c' < 9 → c.problem.state r c' = none → c.problem.domain r c' ≠ []) ∧
    (∀ c ∈ (getChildren_MRV_LCV parent m).1,
      ∀ r c', r < 9 → c' < 9 → c.problem.state r c' = none → c.problem.domain r c' ≠ []) ∧
    (∀ v, hasEmptyDomainAtUnassigned
        (setCellG parent.problem.state parent.lastAssigned.1 parent.lastAssigned.2 (some v))
        (updateDomain parent.problem.domain (parent.lastAssigned.1, parent.lastAssigned.2) v)
          = true →
      ∀ c ∈ (getChildren_forwarding parent m).1,
        c.problem.state parent.lastAssigned.1 parent.lastAssigned.2 ≠ some v) := by
  refine ⟨?_, ?_, ?_⟩
  · intro c hc r c' hr hc' hnone
    obtain ⟨v, _, hpass, hprob⟩ := mem_getChildren_forwarding parent m c hc
    rw [hprob] at hnone ⊢
    exact (hasEmpty_false_iff _ _).mp hpass r c' hr hc' hnone
  · intro c hc r c' hr hc' hnone
    obtain ⟨np, _, v, _, hpass, hprob⟩ := mem_getChildren_MRV_LCV parent m c hc
    rw [hprob] at hnone ⊢
    exact (hasEmpty_false_iff _ _).mp hpass r c' hr hc' hnone
  · intro v hfail c hc heq
    obtain ⟨v', _, hpass, hprob⟩ := mem_getChildren_forwarding parent m c hc
    have hstate : c.problem.state = setCellG parent.problem.state parent.lastAssigned.1
        parent.lastAssigned.2 (some v') := by
      rw [hprob]
    rw [hstate] at heq
    have hvv : v' = v := by
      have hcell : setCellG parent.problem.state parent.lastAssigned.1 parent.lastAssigned.2
          (some v') parent.lastAssigned.1 parent.lastAssigned.2 = some v' := by
        unfold setCellG
        rw [if_pos ⟨rfl, rfl⟩]
      rw [hcell] at heq
      exact Option.some.inj heq
    rw [hvv] at hpass
    rw [hpass] at hfail
    exact Bool.false_ne_true hfail

/-! ### Full grids: the degenerate early returns (C2) -/

theorem foldl_invariant {α β : Type} (f : β → α → β) (P : β → Prop) :
    ∀ (l : List α) (b : β), (∀ acc x, x ∈ l → P acc → P (f acc x)) → P b → P (l.foldl f b) := by
  intro l
  induction l with
  | nil => intro b _ hP; exact hP
  | cons x xs ih =>
    intro b hstep hP
    rw [List.foldl_cons]
    exact ih _ (fun acc y hy => hstep acc y (by simp [hy])) (hstep b x (by simp) hP)

theorem scanFrom_none_of_full (s : Grid)
    (hfull : ∀ i j, i < 9 → j < 9 → (s i j).isSome = true) (r c : ℕ) :
    scanFrom s r c = none := by
  unfold scanFrom
  apply List.findSome?_eq_none_iff.mpr
  intro i hi
  apply List.findSome?_eq_none_iff.mpr
  intro j hj
  have hi9 : i < 9 := by
    have := List.mem_range'_1.mp hi
    omega
  have hj9 : j < 9 := by
    have := List.mem_range'_1.mp hj
    omega
  have := hfull i j hi9 hj9
  rw [if_neg]
  intro hnone
  rw [hnone] at this
  exact Bool.false_ne_true this

theorem getNextPosition_none_of_full (s : Grid)
    (hfull : ∀ i j, i < 9 → j < 9 → (s i j).isSome = true) :
    getNextPosition s none = none := by
  show (if 9 ≤ (0 : ℕ) then scanFrom s (0 + 1) 0 else scanFrom s 0 0) = none
  rw [if_neg (by omega)]
  exact scanFrom_none_of_full s hfull 0 0

theorem getMRVPosition_none_of_full (p : Problem)
    (hfull : ∀ i j, i < 9 → j < 9 → (p.state i j).isSome = true) :
    getMRVPosition p = none := by
  unfold getMRVPosition
  have hfold : (allCells.foldl (fun (acc : Option (Pos × ℕ)) q =>
      if p.state q.1 q.2 = none then
        let ds := (p.domain q.1 q.2).length
        match acc with
        | none => if 0 < ds then some (q, ds) else none
        | some (b, best) => if ds < best ∧ 0 < ds then some (q, ds) else some (b, best)
      else acc) none) = none := by
    apply foldl_invariant _ (fun acc => acc = none) allCells none ?_ rfl
    intro acc q hq hacc
    have hmem := (allCells_mem q).mp hq
    have hs := hfull q.1 q.2 hmem.1 hmem.2
    rw [if_neg (by intro hn; rw [hn] at hs; exact Bool.false_ne_true hs)]
    exact hacc
  rw [hfold]
  rfl

theorem blockCells_mem (br bc : ℕ) (q : Pos) :
    q ∈ blockCells br bc ↔
      br * 3 ≤ q.1 ∧ q.1 < br * 3 + 3 ∧ bc * 3 ≤ q.2 ∧ q.2 < bc * 3 + 3 := by
  obtain ⟨x, y⟩ := q
  simp only [blockCells, List.mem_flatMap, List.mem_map, List.mem_range, Prod.mk.injEq]
  constructor
  · rintro ⟨i, hi, j, hj, h1, h2⟩
    omega
  · rintro ⟨h1, h2, h3, h4⟩
    exact ⟨x - br * 3, by omega, y - bc * 3, by omega, by omega, by omega⟩

theorem blocksIdx_mem (b : ℕ × ℕ) : b ∈ blocksIdx ↔ b.1 < 3 ∧ b.2 < 3 := by
  obtain ⟨x, y⟩ := b
  simp only [blocksIdx, List.mem_flatMap, List.mem_map, List.mem_range, Prod.mk.injEq]
  constructor
  · rintro ⟨i, hi, j, hj, h1, h2⟩
    omega
  · rintro ⟨h1, h2⟩
    exact ⟨x, h1, y, h2, rfl, rfl⟩

theorem fillBlock_of_full (g : Grid) (miss : List ℕ) (br bc : ℕ)
    (hfull : ∀ q, q ∈ blockCells br bc → g q.1 q.2 ≠ none) :
    fillBlock g miss br bc = g := by
  unfold fillBlock
  have : ((blockCells br bc).foldl (fun (acc : Grid × ℕ) q =>
      if acc.1 q.1 q.2 = none then (setCellG acc.1 q.1 q.2 (some (miss.getD acc.2 0)), acc.2 + 1)
      else acc) (g, 0)) = (g, 0) := by
    have hinv := foldl_invariant (fun (acc : Grid × ℕ) q =>
        if acc.1 q.1 q.2 = none then
          (setCellG acc.1 q.1 q.2 (some (miss.getD acc.2 0)), acc.2 + 1)
        else acc) (fun acc => acc = (g, 0)) (blockCells br bc) (g, 0) ?_ rfl
    · exact hinv
    · intro acc q hq hacc
      subst hacc
      simp [hfull q hq]
  rw [this]

theorem rca_of_full (o : SAOracle) (s : Grid) (t : ℕ)
    (hfull : ∀ i j, i < 9 → j < 9 → (s i j).isSome = true) :
    (randomCompleteAssignment o s t).1 = s := by
  unfold randomCompleteAssignment
  have hinv := foldl_invariant (rcaStep o) (fun (acc : Grid × ℕ) => acc.1 = s)
    blocksIdx (s, t) ?_ rfl
  · exact hinv
  · intro acc b hb hacc
    have hbm := (blocksIdx_mem b).mp hb
    unfold rcaStep
    simp only
    rw [hacc]
    apply fillBlock_of_full
    intro q hq
    have hqm := (blockCells_mem b.1 b.2 q).mp hq
    have h1 : q.1 < 9 := by omega
    have h2 : q.2 < 9 := by omega
    have := hfull q.1 q.2 h1 h2
    intro hn
    rw [hn] at this
    exact Bool.false_ne_true this

theorem saLoop_conf_zero (o : SAOracle) (fixd : FMat) (steps : ℕ) (cur : Grid)
    (m : Metrics) (t g : ℕ) :
    saLoop o fixd steps cur 0 m t g = ⟨some cur, m, g⟩ := by
  cases steps <;> simp [saLoop]

theorem nonFixedCells_initiate_full (s : Grid)
    (hfull : ∀ i j, i < 9 → j < 9 → (s i j).isSome = true) :
    ∀ br bc, br < 3 → bc < 3 → nonFixedCells (initiate s).fixd br bc = [] := by
  intro br bc hbr hbc
  unfold nonFixedCells
  apply List.filter_eq_nil_iff.mpr
  intro q hq
  have hb := (blockCells_mem br bc q).mp hq
  have h1 : q.1 < 9 := by omega
  have h2 : q.2 < 9 := by omega
  simp [initiate, h1, h2, hfull q.1 q.2 h1 h2]

theorem saLoop_all_skip (o : SAOracle) (fixd : FMat)
    (hfix : ∀ br bc, br < 3 → bc < 3 → nonFixedCells fixd br bc = []) :
    ∀ (steps : ℕ) (cur : Grid) (conf : ℕ) (m : Metrics) (t g : ℕ), conf ≠ 0 →
      saLoop o fixd steps cur conf m t g =
        ⟨none, { m with iterations := m.iterations + steps }, g⟩ := by
  intro steps
  induction steps with
  | zero =>
    intro cur conf m t g hconf
    simp [saLoop, hconf]
  | succ steps ih =>
    intro cur conf m t g hconf
    rw [saLoop]
    rw [if_neg hconf]
    have hcells : nonFixedCells fixd (o.pick t % 3) (o.pick (t + 1) % 3) = [] :=
      hfix _ _ (Nat.mod_lt _ (by omega)) (Nat.mod_lt _ (by omega))
    simp only [hcells, List.length_nil]
    rw [if_pos (by omega)]
    rw [ih cur conf _ (t + 2) g hconf]
    have : m.iterations + 1 + steps = m.iterations + (steps + 1) := by omega
    rw [this]

/-- C2 (amended): on a grid with no empty cell, the three backtracking
entry points return immediately — metrics still at reset, in particular
zero nodes expanded — with the input grid as an unconditional success (the
early return performs no consistency check); simulated annealing returns
the grid as success iff its row/column conflict count is zero, and
otherwise fails only after consuming the whole iteration budget. -/
theorem claim_C2 (s : Grid) (hfull : ∀ i j, i < 9 → j < 9 → (s i j).isSome = true) :
    (∀ fuel, backtack fuel s = (some (some (SNode.root (initiate s) (0, 0))), Metrics.reset)) ∧
    (∀ fuel, backtack_forward fuel s =
      (some (some (SNode.root (initiate s) (0, 0))), Metrics.reset)) ∧
    (∀ fuel, backtrack_MRV_LCV fuel s =
      (some (some (SNode.root (initiate s) (0, 0))), Metrics.reset)) ∧
    (∀ o maxSteps,
      (countConflicts s = 0 →
        simulatedAnnealing o s (initiate s).fixd maxSteps =
          ⟨some s, Metrics.reset, 0⟩) ∧
      (countConflicts s ≠ 0 →
        (simulatedAnnealing o s (initiate s).fixd maxSteps).result = none ∧
        (simulatedAnnealing o s (initiate s).fixd maxSteps).metrics =
          { Metrics.reset with iterations := maxSteps })) := by
  have hnext := getNextPosition_none_of_full s hfull
  have hmrv := getMRVPosition_none_of_full (initiate s) hfull
  refine ⟨?_, ?_, ?_, ?_⟩
  · intro fuel
    unfold backtack
    rw [hnext]
  · intro fuel
    unfold backtack_forward
    rw [hnext]
  · intro fuel
    unfold backtrack_MRV_LCV
    dsimp only
    rw [hmrv]
  · intro o maxSteps
    have hrca : (randomCompleteAssignment o s 0).1 = s := rca_of_full o s 0 hfull
    constructor
    · intro hconf
      unfold simulatedAnnealing
      dsimp only
      rw [hrca, hconf, saLoop_conf_zero]
    · intro hconf
      unfold simulatedAnnealing
      dsimp only
      rw [hrca, saLoop_all_skip o _ (nonFixedCells_initiate_full s hfull) maxSteps s
        (countConflicts s) Metrics.reset _ 0 hconf]
      exact ⟨rfl, by simp [Metrics.reset]⟩

/-- Counterexample to C2 as stated: the all-ones grid is fully assigned and
inconsistent, yet `backtack` reports success (with zero nodes expanded)
instead of failure. -/
theorem claim_C2_counterexample :
    isSuccess (backtack 1 allOnesGrid).1 = true ∧
    (backtack 1 allOnesGrid).2.nodesExpanded = 0 ∧
    consistent (initiate allOnesGrid) = false :=
  ⟨by decide, by decide, by decide⟩

/-- Witness for C2 at the all-ones grid. -/
theorem claim_C2_witness :
    (∀ i j, i < 9 → j < 9 → (allOnesGrid i j).isSome = true) ∧
    backtack 5 allOnesGrid = (some (some (SNode.root (initiate allOnesGrid) (0, 0))),
      Metrics.reset) :=
  ⟨by intro i j _ _; rfl, (claim_C2 allOnesGrid (by intro i j _ _; rfl)).1 5⟩



/-! ### countConflicts counts duplicates-beyond-first, not pairs (C7) -/

theorem seenFold_range (f : ℕ → Option ℕ) :
    ∀ (n k : ℕ) (seen : List (Option ℕ)) (c : ℕ),
      (∀ x, x ∈ seen ↔ ∃ j', j' < k ∧ f j' = x) →
      ((List.range' k n).foldl (fun (acc : List (Option ℕ) × ℕ) j =>
        (f j :: acc.1, if acc.1.contains (f j) then acc.2 + 1 else acc.2)) (seen, c)).2 =
      c + (List.range' k n).countP (fun j => decide (∃ j', j' < j ∧ f j' = f j)) := by
  intro n
  induction n with
  | zero => intro k seen c _; simp
  | succ n ih =>
    intro k seen c hseen
    rw [List.range'_succ k n 1, List.foldl_cons, List.countP_cons]
    have hnew : ∀ x, x ∈ f k :: seen ↔ ∃ j', j' < k + 1 ∧ f j' = x := by
      intro x
      simp only [List.mem_cons, hseen]
      constructor
      · rintro (h | ⟨j', hj', hfx⟩)
        · exact ⟨k, by omega, h.symm⟩
        · exact ⟨j', by omega, hfx⟩
      · rintro ⟨j', hj', hfx⟩
        by_cases hk : j' = k
        · exact Or.inl (hk ▸ hfx).symm
        · exact Or.inr ⟨j', by omega, hfx⟩
    have hcont : seen.contains (f k) = decide (∃ j', j' < k ∧ f j' = f k) := by
      by_cases h : ∃ j', j' < k ∧ f j' = f k
      · rw [decide_eq_true h]
        exact List.elem_eq_true_of_mem ((hseen (f k)).mpr h)
      · have hm : f k ∉ seen := fun hmem => h ((hseen (f k)).mp hmem)
        rw [decide_eq_false h]
        exact Bool.eq_false_iff.mpr fun hc => hm (List.elem_iff.mp hc)
    rw [ih (k + 1) (f k :: seen) _ hnew, hcont]
    by_cases h : ∃ j', j' < k ∧ f j' = f k
    · simp only [decide_eq_true h, if_true]
      omega
    · simp only [decide_eq_false h, Bool.false_eq_true, if_false]
      omega

theorem foldl_add_sum (f : ℕ → ℕ) :
    ∀ (l : List ℕ) (a : ℕ), l.foldl (fun c i => c + f i) a = a + (l.map f).sum := by
  intro l
  induction l with
  | nil => intro a; simp
  | cons x xs ih =>
    intro a
    rw [List.foldl_cons, ih, List.map_cons, List.sum_cons]
    omega

theorem rowConflicts_spec (s : Grid) (i : ℕ) :
    rowConflicts s i =
      (List.range 9).countP fun j => decide (∃ j', j' < j ∧ s i j' = s i j) := by
  unfold rowConflicts
  rw [List.range_eq_range']
  rw [seenFold_range (fun j => s i j) 9 0 [] 0 (by simp)]
  exact Nat.zero_add _

theorem colConflicts_spec (s : Grid) (j : ℕ) :
    colConflicts s j =
      (List.range 9).countP fun i => decide (∃ i', i' < i ∧ s i' j = s i j) := by
  unfold colConflicts
  rw [List.range_eq_range']
  rw [seenFold_range (fun i => s i j) 9 0 [] 0 (by simp)]
  exact Nat.zero_add _

/-- C7 (amended): `countConflicts` adds, over all rows and all columns, the
number of cells whose value already occurs at an earlier cell of the same
group — each extra occurrence beyond the first counts once, unlike the
unordered-pair count in the claim. -/
theorem claim_C7 (s : Grid) :
    countConflicts s = rowDupConflicts s + colDupConflicts s := by
  unfold countConflicts rowDupConflicts colDupConflicts
  rw [foldl_add_sum (rowConflicts s), foldl_add_sum (colConflicts s)]
  have hrow : (List.range 9).map (rowConflicts s) =
      (List.range 9).map fun i =>
        (List.range 9).countP fun j => decide (∃ j', j' < j ∧ s i j' = s i j) :=
    List.map_congr_left fun i _ => rowConflicts_spec s i
  have hcol : (List.range 9).map (colConflicts s) =
      (List.range 9).map fun j =>
        (List.range 9).countP fun i => decide (∃ i', i' < i ∧ s i' j = s i j) :=
    List.map_congr_left fun j _ => colConflicts_spec s j
  rw [hrow, hcol]
  omega

/-- Counterexample to C7 as stated: on the all-ones grid `countConflicts`
returns 144 (eight duplicates per row and per column), while the number of
unordered equal pairs per the claim is 648. -/
theorem claim_C7_counterexample :
    countConflicts allOnesGrid = 144 ∧
    rowPairConflicts allOnesGrid + colPairConflicts allOnesGrid = 648 ∧
    countConflicts allOnesGrid ≠
      rowPairConflicts allOnesGrid + colPairConflicts allOnesGrid :=
  ⟨by decide, by decide, by decide⟩


/-! ### getLCV: stable sort by the code's triple-scan count (C8) -/

theorem insertByKey_perm (key : ℕ → ℕ) (x : ℕ) :
    ∀ l : List ℕ, (insertByKey key x l).Perm (x :: l) := by
  intro l
  induction l with
  | nil => simp [insertByKey]
  | cons y ys ih =>
    unfold insertByKey
    by_cases h : key y < key x
    · rw [if_pos h]
      exact (ih.cons y).trans (List.Perm.swap x y ys)
    · rw [if_neg h]

theorem sortByKey_perm (key : ℕ → ℕ) :
    ∀ l : List ℕ, (sortByKey key l).Perm l := by
  intro l
  induction l with
  | nil => simp [sortByKey]
  | cons x xs ih =>
    have h1 : sortByKey key (x :: xs) = insertByKey key x (sortByKey key xs) := rfl
    rw [h1]
    exact (insertByKey_perm key x (sortByKey key xs)).trans (ih.cons x)

theorem insertByKey_sorted (key : ℕ → ℕ) (x : ℕ) :
    ∀ l : List ℕ, List.Sorted (fun a b => key a ≤ key b) l →
      List.Sorted (fun a b => key a ≤ key b) (insertByKey key x l) := by
  intro l
  induction l with
  | nil => intro _; simp [insertByKey]
  | cons y ys ih =>
    intro hs
    rw [List.sorted_cons] at hs
    unfold insertByKey
    by_cases h : key y < key x
    · rw [if_pos h]
      apply List.sorted_cons.mpr
      refine ⟨?_, ih hs.2⟩
      intro b hb
      have hmem := (insertByKey_perm key x ys).mem_iff.mp hb
      rcases List.mem_cons.mp hmem with hbx | hby
      · rw [hbx]; omega
      · exact hs.1 b hby
    · rw [if_neg h]
      apply List.sorted_cons.mpr
      refine ⟨?_, List.sorted_cons.mpr hs⟩
      intro b hb
      rcases List.mem_cons.mp hb with hby | hbys
      · rw [hby]; omega
      · have := hs.1 b hbys
        omega

theorem sortByKey_sorted (key : ℕ → ℕ) :
    ∀ l : List ℕ, List.Sorted (fun a b => key a ≤ key b) (sortByKey key l) := by
  intro l
  induction l with
  | nil => simp [sortByKey]
  | cons x xs ih => exact insertByKey_sorted key x (sortByKey key xs) ih

theorem insertByKey_filter (key : ℕ → ℕ) (x k : ℕ) :
    ∀ l : List ℕ, (insertByKey key x l).filter (fun v => key v == k) =
      if key x = k then x :: l.filter (fun v => key v == k)
      else l.filter (fun v => key v == k) := by
  intro l
  induction l with
  | nil =>
    unfold insertByKey
    by_cases h : key x = k <;> simp [h]
  | cons y ys ih =>
    unfold insertByKey
    by_cases h : key y < key x
    · rw [if_pos h]
      by_cases hx : key x = k
      · have hy : ¬(key y = k) := by omega
        simp [hx, hy, List.filter_cons, ih]
      · by_cases hy : key y = k <;> simp [hx, hy, List.filter_cons, ih]
    · rw [if_neg h]
      by_cases hx : key x = k <;> by_cases hy : key y = k <;>
        simp [hx, hy, List.filter_cons]

theorem sortByKey_filter (key : ℕ → ℕ) (k : ℕ) :
    ∀ l : List ℕ, (sortByKey key l).filter (fun v => key v == k) =
      l.filter (fun v => key v == k) := by
  intro l
  induction l with
  | nil => rfl
  | cons x xs ih =>
    have h1 : sortByKey key (x :: xs) = insertByKey key x (sortByKey key xs) := rfl
    rw [h1, insertByKey_filter]
    by_cases hx : key x = k <;> simp [hx, List.filter_cons, ih]

/-- C8 (amended): `getLCV` returns exactly the values of the domain at
`pos`, ordered ascending by the count its scans compute — the number of
unassigned cells with the value in their domain summed over the row scan,
the column scan and the block scan, which counts `pos` itself and counts
twice the peers sharing both the block and the row or column — with ties
keeping the original domain order (JS sort is stable). -/
theorem claim_C8 (p : Problem) (pos : Pos) :
    (getLCV p pos).Perm (p.domain pos.1 pos.2) ∧
    List.Sorted (fun a b => lcvCount p pos a ≤ lcvCount p pos b) (getLCV p pos) ∧
    (∀ k, (getLCV p pos).filter (fun v => lcvCount p pos v == k) =
      (p.domain pos.1 pos.2).filter (fun v => lcvCount p pos v == k)) :=
  ⟨sortByKey_perm _ _, sortByKey_sorted _ _, fun k => sortByKey_filter _ k _⟩

/-- Counterexample to C8 as stated: in `lcvProblem`, value 1 eliminates two
peer domain entries and value 2 three, so the spec's ordering is `[1, 2]`;
the code counts 1 seven times (the cell itself three times, the two
row-and-block peers twice each) and 2 six times, and returns `[2, 1]`. -/
theorem claim_C8_counterexample :
    getLCV lcvProblem (0, 0) = [2, 1] ∧
    getLCVspec lcvProblem (0, 0) = [1, 2] ∧
    lcvSpecCount lcvProblem (0, 0) 1 = 2 ∧
    lcvSpecCount lcvProblem (0, 0) 2 = 3 ∧
    getLCV lcvProblem (0, 0) ≠ getLCVspec lcvProblem (0, 0) :=
  ⟨by decide, by decide, by decide, by decide, by decide⟩


/-! ### Simulated-annealing metrics (C9) -/

theorem saLoop_zeros (o : SAOracle) (fixd : FMat) :
    ∀ (steps : ℕ) (cur : Grid) (conf : ℕ) (m : Metrics) (t g : ℕ),
      (saLoop o fixd steps cur conf m t g).metrics.nodesExpanded = m.nodesExpanded ∧
      (saLoop o fixd steps cur conf m t g).metrics.childrenGenerated = m.childrenGenerated ∧
      (saLoop o fixd steps cur conf m t g).metrics.maxDepth = m.maxDepth := by
  intro steps
  induction steps with
  | zero =>
    intro cur conf m t g
    by_cases hconf : conf = 0 <;> simp [saLoop, hconf]
  | succ steps ih =>
    intro cur conf m t g
    rw [saLoop]
    by_cases hconf : conf = 0
    · rw [if_pos hconf]
      exact ⟨rfl, rfl, rfl⟩
    · rw [if_neg hconf]
      dsimp only
      split_ifs <;> exact ih _ _ _ _ _

theorem saLoop_fail_iterations (o : SAOracle) (fixd : FMat) :
    ∀ (steps : ℕ) (cur : Grid) (conf : ℕ) (m : Metrics) (t g : ℕ),
      (saLoop o fixd steps cur conf m t g).result = none →
      (saLoop o fixd steps cur conf m t g).metrics.iterations = m.iterations + steps := by
  intro steps
  induction steps with
  | zero =>
    intro cur conf m t g hres
    by_cases hconf : conf = 0
    · rw [saLoop, if_pos hconf] at hres
      exact absurd hres (by simp)
    · simp [saLoop, hconf]
  | succ steps ih =>
    intro cur conf m t g hres
    rw [saLoop] at hres ⊢
    by_cases hconf : conf = 0
    · rw [if_pos hconf] at hres
      exact absurd hres (by simp)
    · rw [if_neg hconf] at hres ⊢
      dsimp only at hres ⊢
      split_ifs at hres ⊢ with h1 h2 h3
      all_goals
        rw [ih _ _ _ _ _ hres]
        show m.iterations + 1 + steps = m.iterations + (steps + 1)
        omega

/-- C9 (amended): after `simulatedAnnealing` returns, `nodesExpanded`,
`childrenGenerated` and `maxDepth` are still at their reset value zero, and
`iterations` counts every executed loop step — including the steps skipped
because the chosen block has fewer than two non-fixed cells — so a failing
run has consumed exactly `maxSteps` iterations. -/
theorem claim_C9 (o : SAOracle) (s : Grid) (fixd : FMat) (maxSteps : ℕ) :
    (simulatedAnnealing o s fixd maxSteps).metrics.nodesExpanded = 0 ∧
    (simulatedAnnealing o s fixd maxSteps).metrics.childrenGenerated = 0 ∧
    (simulatedAnnealing o s fixd maxSteps).metrics.maxDepth = 0 ∧
    ((simulatedAnnealing o s fixd maxSteps).result = none →
      (simulatedAnnealing o s fixd maxSteps).metrics.iterations = maxSteps) := by
  unfold simulatedAnnealing
  dsimp only
  refine ⟨(saLoop_zeros o fixd _ _ _ _ _ _).1,
    (saLoop_zeros o fixd _ _ _ _ _ _).2.1,
    (saLoop_zeros o fixd _ _ _ _ _ _).2.2, ?_⟩
  intro hres
  rw [saLoop_fail_iterations o fixd _ _ _ _ _ _ hres]
  show 0 + maxSteps = maxSteps
  omega

set_option maxRecDepth 40000 in
/-- Counterexample to C9 as stated: on the all-ones grid with every cell
fixed and `maxSteps = 1`, the only loop step is skipped for structural
reasons (no block has two non-fixed cells), no swap is ever attempted
(ghost counter 0), yet `iterations` is 1, not 0. -/
theorem claim_C9_counterexample :
    (simulatedAnnealing oracleZero allOnesGrid (initiate allOnesGrid).fixd 1).metrics.iterations
      = 1 ∧
    (simulatedAnnealing oracleZero allOnesGrid (initiate allOnesGrid).fixd 1).swapTried = 0 ∧
    (1 : ℕ) ≠ 0 :=
  ⟨by decide, by decide, by decide⟩

set_option maxRecDepth 40000 in
/-- Witness for C9: a failing run with `maxSteps = 1` has `iterations = 1`. -/
theorem claim_C9_witness :
    (simulatedAnnealing oracleZero allOnesGrid (initiate allOnesGrid).fixd 1).result = none ∧
    (simulatedAnnealing oracleZero allOnesGrid (initiate allOnesGrid).fixd 1).metrics.iterations
      = 1 := by
  have h1 : (simulatedAnnealing oracleZero allOnesGrid
      (initiate allOnesGrid).fixd 1).result.isSome = false := by decide
  have hres : (simulatedAnnealing oracleZero allOnesGrid
      (initiate allOnesGrid).fixd 1).result = none :=
    Option.not_isSome_iff_eq_none.mp (by intro hc; rw [h1] at hc; exact Bool.false_ne_true hc)
  exact ⟨hres, (claim_C9 oracleZero allOnesGrid (initiate allOnesGrid).fixd 1).2.2.2 hres⟩


/-! ### C1: successful searches return fully valid grids -/

theorem digitsOKb_spec (s : Grid) (h : digitsOKb s = true) : GridDigits s := by
  intro i j hi hj v hv
  have h1 := List.all_eq_true.mp h i (List.mem_range.mpr hi)
  have h2 := List.all_eq_true.mp h1 j (List.mem_range.mpr hj)
  rw [hv] at h2
  exact of_decide_eq_true h2

theorem initiate_domains (s : Grid) : DomDigits (initiate s).domain := by
  intro i j hi hj v hv
  unfold initiate at hv
  dsimp only at hv
  rw [if_pos ⟨hi, hj⟩] at hv
  split at hv
  · have hv9 : v = 1 ∨ v = 2 ∨ v = 3 ∨ v = 4 ∨ v = 5 ∨ v = 6 ∨ v = 7 ∨ v = 8 ∨ v = 9 := by
      simpa using hv
    omega
  · exact absurd hv (List.not_mem_nil v)

theorem scanFrom_mem (s : Grid) (r c : ℕ) (q : Pos) (h : scanFrom s r c = some q) :
    q.1 < 9 ∧ q.2 < 9 ∧ s q.1 q.2 = none := by
  unfold scanFrom at h
  obtain ⟨i, hi, hinner⟩ := List.exists_of_findSome?_eq_some h
  obtain ⟨j, hj, hcell⟩ := List.exists_of_findSome?_eq_some hinner
  have hi9 : i < 9 := by
    have := List.mem_range'_1.mp hi
    omega
  have hj9 : j < 9 := by
    have := List.mem_range'_1.mp hj
    omega
  by_cases hn : s i j = none
  · rw [if_pos hn] at hcell
    cases hcell
    exact ⟨hi9, hj9, hn⟩
  · rw [if_neg hn] at hcell
    exact absurd hcell (by simp)

theorem getNextPosition_mem (s : Grid) (cur : Option Pos) (q : Pos)
    (h : getNextPosition s cur = some q) : q.1 < 9 ∧ q.2 < 9 ∧ s q.1 q.2 = none := by
  unfold getNextPosition at h
  cases cur with
  | none =>
    dsimp only at h
    split at h <;> exact scanFrom_mem s _ _ q h
  | some q0 =>
    dsimp only at h
    split at h <;> exact scanFrom_mem s _ _ q h

theorem getMRVPosition_mem (p : Problem) (q : Pos) (h : getMRVPosition p = some q) :
    q.1 < 9 ∧ q.2 < 9 := by
  unfold getMRVPosition at h
  have hinv := foldl_invariant (fun (acc : Option (Pos × ℕ)) q =>
      if p.state q.1 q.2 = none then
        let ds := (p.domain q.1 q.2).length
        match acc with
        | none => if 0 < ds then some (q, ds) else none
        | some (b, best) => if ds < best ∧ 0 < ds then some (q, ds) else some (b, best)
      else acc)
    (fun acc => ∀ qd, acc = some qd → qd.1.1 < 9 ∧ qd.1.2 < 9) allCells none ?_ (by simp)
  · obtain ⟨qd, hqd, hq⟩ := Option.map_eq_some'.mp h
    exact hq ▸ hinv qd hqd
  · intro acc x hx hacc qd hqd
    dsimp only at hqd
    have hxm := (allCells_mem x).mp hx
    by_cases hn : p.state x.1 x.2 = none
    · rw [if_pos hn] at hqd
      cases acc with
      | none =>
        by_cases hds : 0 < (p.domain x.1 x.2).length
        · rw [if_pos hds] at hqd
          cases hqd
          exact hxm
        · rw [if_neg hds] at hqd
          exact absurd hqd (by simp)
      | some bb =>
        obtain ⟨b, best⟩ := bb
        dsimp only at hqd
        by_cases hds : (p.domain x.1 x.2).length < best ∧ 0 < (p.domain x.1 x.2).length
        · rw [if_pos hds] at hqd
          cases hqd
          exact hxm
        · rw [if_neg hds] at hqd
          cases hqd
          exact hacc (b, best) rfl
    · rw [if_neg hn] at hqd
      exact hacc qd hqd

theorem isgoal_spec (p : Problem) (h : isgoal p = true) :
    (∀ i j, i < 9 → j < 9 → (p.state i j).isSome = true) ∧ consistent p = true := by
  unfold isgoal at h
  rw [Bool.and_eq_true] at h
  refine ⟨?_, h.2⟩
  intro i j hi hj
  exact List.all_eq_true.mp h.1 (i, j) ((allCells_mem (i, j)).mpr ⟨hi, hj⟩)

theorem count_beq_eq_count_dec (l : List (Option ℕ)) (x : Option ℕ) :
    l.count x = @List.count _ instBEqOfDecidableEq x l := by
  induction l with
  | nil => rfl
  | cons y ys ih =>
    rw [List.count_cons, @List.count_cons _ instBEqOfDecidableEq, ih]
    congr 1
    by_cases h : y = x
    · simp [h]
    · simp [h]

theorem count_one_of_nodup_digits (l : List (Option ℕ)) (hlen : l.length = 9)
    (hnodup : l.Nodup) (hdig : ∀ x ∈ l, ∃ v, x = some v ∧ 1 ≤ v ∧ v ≤ 9) :
    ∀ d, 1 ≤ d → d ≤ 9 → l.count (some d) = 1 := by
  intro d hd1 hd9
  have hsub : l.toFinset ⊆ (Finset.Icc 1 9).image some := by
    intro x hx
    obtain ⟨v, hxv, hv1, hv9⟩ := hdig x (List.mem_toFinset.mp hx)
    apply Finset.mem_image.mpr
    exact ⟨v, Finset.mem_Icc.mpr ⟨hv1, hv9⟩, hxv.symm⟩
  have hcard1 : l.toFinset.card = 9 := by
    rw [List.toFinset_card_of_nodup hnodup, hlen]
  have hcard2 : ((Finset.Icc 1 9).image some : Finset (Option ℕ)).card = 9 := by
    rw [Finset.card_image_of_injective _ (Option.some_injective ℕ)]
    decide
  have heq : l.toFinset = (Finset.Icc 1 9).image some :=
    Finset.eq_of_subset_of_card_le hsub (by omega)
  have hmem : some d ∈ l := by
    apply List.mem_toFinset.mp
    rw [heq]
    exact Finset.mem_image.mpr ⟨d, Finset.mem_Icc.mpr ⟨hd1, hd9⟩, rfl⟩
  rw [count_beq_eq_count_dec]
  exact List.count_eq_one_of_mem hnodup hmem

theorem blockCells_length (br bc : ℕ) : (blockCells br bc).length = 9 := by
  unfold blockCells
  rw [show List.range 3 = [0, 1, 2] from rfl]
  simp

theorem blockCells_nodup (br bc : ℕ) : (blockCells br bc).Nodup := by
  apply List.nodup_bind.mpr
  constructor
  · intro i _
    refine (List.nodup_range 3).map ?_
    intro a b h
    have := congrArg Prod.snd h
    simp only at this
    omega
  · apply List.Pairwise.imp ?_ (List.nodup_range 3)
    intro a b hab
    simp only [List.Disjoint, List.mem_map, List.mem_range]
    rintro x ⟨j, _, rfl⟩ ⟨j', _, h⟩
    have := congrArg Prod.fst h
    simp only at this
    omega

theorem fullValid_of_goal (s : Grid) (hdig : GridDigits s)
    (hfull : ∀ i j, i < 9 → j < 9 → (s i j).isSome = true)
    (hcons : noTwoShared s) : fullValid s := by
  intro d hd1 hd9
  have hdigx : ∀ (i j : ℕ), i < 9 → j < 9 → ∃ v, s i j = some v ∧ 1 ≤ v ∧ v ≤ 9 := by
    intro i j hi hj
    obtain ⟨v, hv⟩ := Option.isSome_iff_exists.mp (hfull i j hi hj)
    exact ⟨v, hv, hdig i j hi hj v hv⟩
  refine ⟨?_, ?_, ?_⟩
  · intro i hi
    apply count_one_of_nodup_digits _ (by simp [rowList]) ?_ ?_ d hd1 hd9
    · apply (List.nodup_map_iff_inj_on (List.nodup_range 9)).mpr
      intro a ha b hb hab
      by_contra hne
      obtain ⟨v, hv, _, _⟩ := hdigx i a hi (List.mem_range.mp ha)
      rw [hv] at hab
      exact hcons i a i b v hi (List.mem_range.mp ha) hi (List.mem_range.mp hb)
        (by simp [hne]) hv hab.symm (Or.inl rfl)
    · intro x hx
      obtain ⟨j, hj, hxj⟩ := List.mem_map.mp hx
      obtain ⟨v, hv, h1, h9⟩ := hdigx i j hi (List.mem_range.mp hj)
      exact ⟨v, by rw [← hxj, hv], h1, h9⟩
  · intro j hj
    apply count_one_of_nodup_digits _ (by simp [colList]) ?_ ?_ d hd1 hd9
    · apply (List.nodup_map_iff_inj_on (List.nodup_range 9)).mpr
      intro a ha b hb hab
      by_contra hne
      obtain ⟨v, hv, _, _⟩ := hdigx a j (List.mem_range.mp ha) hj
      rw [hv] at hab
      exact hcons a j b j v (List.mem_range.mp ha) hj (List.mem_range.mp hb) hj
        (by simp [hne]) hv hab.symm (Or.inr (Or.inl rfl))
    · intro x hx
      obtain ⟨i, hi2, hxi⟩ := List.mem_map.mp hx
      obtain ⟨v, hv, h1, h9⟩ := hdigx i j (List.mem_range.mp hi2) hj
      exact ⟨v, by rw [← hxi, hv], h1, h9⟩
  · intro br bc hbr hbc
    apply count_one_of_nodup_digits _ (by simp [blockList, blockCells_length]) ?_ ?_ d hd1 hd9
    · apply (List.nodup_map_iff_inj_on (blockCells_nodup br bc)).mpr
      intro a ha b hb hab
      by_contra hne
      have hma := (blockCells_mem br bc a).mp ha
      have hmb := (blockCells_mem br bc b).mp hb
      have ha1 : a.1 < 9 := by omega
      have ha2 : a.2 < 9 := by omega
      have hb1 : b.1 < 9 := by omega
      have hb2 : b.2 < 9 := by omega
      obtain ⟨v, hv, _, _⟩ := hdigx a.1 a.2 ha1 ha2
      rw [hv] at hab
      refine hcons a.1 a.2 b.1 b.2 v ha1 ha2 hb1 hb2 ?_ hv hab.symm ?_
      · intro hc
        apply hne
        obtain ⟨x1, y1⟩ := a
        obtain ⟨x2, y2⟩ := b
        simpa using hc
      · exact Or.inr (Or.inr ⟨by omega, by omega⟩)
    · intro x hx
      obtain ⟨q, hq, hxq⟩ := List.mem_map.mp hx
      have hqm := (blockCells_mem br bc q).mp hq
      obtain ⟨v, hv, h1, h9⟩ := hdigx q.1 q.2 (by omega) (by omega)
      exact ⟨v, by rw [← hxq, hv], h1, h9⟩


theorem GridDigits_set (s : Grid) (hs : GridDigits s) (i j v : ℕ) (h1 : 1 ≤ v) (h9 : v ≤ 9) :
    GridDigits (setCellG s i j (some v)) := by
  intro i' j' hi' hj' w hw
  unfold setCellG at hw
  split at hw
  · cases hw
    exact ⟨h1, h9⟩
  · exact hs i' j' hi' hj' w hw

theorem DomDigits_update (d : DMat) (hd : DomDigits d) (p : Pos) (v : ℕ) :
    DomDigits (updateDomain d p v) := by
  intro i j hi hj w hw
  exact hd i j hi hj w (updateDomain_subset d p v w i j hw)

theorem getChildren_preserves (parent : SNode) (m : Metrics) (hok : NodeOK parent) :
    ∀ c ∈ (getChildren parent m).1, NodeOK c := by
  intro c hc
  dsimp only [getChildren] at hc
  obtain ⟨v, hv, hcv⟩ := List.mem_map.mp hc
  obtain ⟨hdigs, hdoms, hl1, hl2⟩ := hok
  have hvd : 1 ≤ v ∧ v ≤ 9 := hdoms _ _ hl1 hl2 v hv
  cases hnp : getNextPosition parent.problem.state (some parent.lastAssigned) with
  | none =>
    rw [hnp] at hcv
    cases hcv
    exact ⟨GridDigits_set _ hdigs _ _ _ hvd.1 hvd.2, DomDigits_update _ hdoms _ _, hl1, hl2⟩
  | some np =>
    rw [hnp] at hcv
    cases hcv
    have hb := getNextPosition_mem _ _ _ hnp
    exact ⟨GridDigits_set _ hdigs _ _ _ hvd.1 hvd.2, DomDigits_update _ hdoms _ _,
      hb.1, hb.2.1⟩

theorem getChildren_forwarding_preserves (parent : SNode) (m : Metrics) (hok : NodeOK parent) :
    ∀ c ∈ (getChildren_forwarding parent m).1, NodeOK c := by
  intro c hc
  dsimp only [getChildren_forwarding] at hc
  obtain ⟨v, hv, hf⟩ := List.mem_filterMap.mp hc
  obtain ⟨hdigs, hdoms, hl1, hl2⟩ := hok
  have hvd : 1 ≤ v ∧ v ≤ 9 := hdoms _ _ hl1 hl2 v hv
  by_cases hg : hasEmptyDomainAtUnassigned
      (setCellG parent.problem.state parent.lastAssigned.1 parent.lastAssigned.2 (some v))
      (updateDomain parent.problem.domain (parent.lastAssigned.1, parent.lastAssigned.2) v)
  · rw [if_pos hg] at hf
    exact absurd hf (by simp)
  · rw [if_neg hg] at hf
    cases hnp : getNextPosition parent.problem.state (some parent.lastAssigned) with
    | none =>
      rw [hnp] at hf
      cases hf
      exact ⟨GridDigits_set _ hdigs _ _ _ hvd.1 hvd.2, DomDigits_update _ hdoms _ _, hl1, hl2⟩
    | some np =>
      rw [hnp] at hf
      cases hf
      have hb := getNextPosition_mem _ _ _ hnp
      exact ⟨GridDigits_set _ hdigs _ _ _ hvd.1 hvd.2, DomDigits_update _ hdoms _ _,
        hb.1, hb.2.1⟩

theorem getChildren_MRV_LCV_preserves (parent : SNode) (m : Metrics) (hok : NodeOK parent) :
    ∀ c ∈ (getChildren_MRV_LCV parent m).1, NodeOK c := by
  intro c hc
  unfold getChildren_MRV_LCV at hc
  cases hmrv : getMRVPosition parent.problem with
  | none =>
    rw [hmrv] at hc
    exact absurd hc (by simp)
  | some np =>
    rw [hmrv] at hc
    dsimp only at hc
    obtain ⟨v, hv, hf⟩ := List.mem_filterMap.mp hc
    have hnpm := getMRVPosition_mem parent.problem np hmrv
    obtain ⟨hdigs, hdoms, _, _⟩ := hok
    have hvdom : v ∈ parent.problem.domain np.1 np.2 :=
      (sortByKey_perm _ _).mem_iff.mp hv
    have hvd : 1 ≤ v ∧ v ≤ 9 := hdoms _ _ hnpm.1 hnpm.2 v hvdom
    by_cases hg : hasEmptyDomainAtUnassigned
        (setCellG parent.problem.state np.1 np.2 (some v))
        (updateDomain parent.problem.domain np v)
    · rw [if_pos hg] at hf
      exact absurd hf (by simp)
    · rw [if_neg hg] at hf
      cases hf
      refine ⟨GridDigits_set _ hdigs _ _ _ hvd.1 hvd.2, DomDigits_update _ hdoms _ _, ?_, ?_⟩
      · show ((getMRVPosition ⟨setCellG parent.problem.state np.1 np.2 (some v),
            updateDomain parent.problem.domain np v, parent.problem.fixd⟩).getD np).1 < 9
        cases hu : getMRVPosition ⟨setCellG parent.problem.state np.1 np.2 (some v),
            updateDomain parent.problem.domain np v, parent.problem.fixd⟩ with
        | none => exact hnpm.1
        | some q => exact (getMRVPosition_mem _ q hu).1
      · show ((getMRVPosition ⟨setCellG parent.problem.state np.1 np.2 (some v),
            updateDomain parent.problem.domain np v, parent.problem.fixd⟩).getD np).2 < 9
        cases hu : getMRVPosition ⟨setCellG parent.problem.state np.1 np.2 (some v),
            updateDomain parent.problem.domain np v, parent.problem.fixd⟩ with
        | none => exact hnpm.2
        | some q => exact (getMRVPosition_mem _ q hu).2

theorem btLoop_success (expand : SNode → Metrics → List SNode × Metrics) (P : SNode → Prop)
    (hexp : ∀ n m, P n → ∀ c ∈ (expand n m).1, P c) :
    ∀ (fuel : ℕ) (fringe : List SNode) (m : Metrics) (n : SNode) (m' : Metrics),
      (∀ x ∈ fringe, P x) →
      btLoop expand fuel fringe m = (some (some n), m') →
      P n ∧ isgoal n.problem = true := by
  intro fuel
  induction fuel with
  | zero =>
    intro fringe m n m' hP h
    exact absurd h (by simp [btLoop])
  | succ fuel ih =>
    intro fringe m n m' hP h
    rw [btLoop] at h
    cases hlast : fringe.getLast? with
    | none =>
      rw [hlast] at h
      exact absurd h (by simp)
    | some current =>
      rw [hlast] at h
      dsimp only at h
      have hcur : current ∈ fringe :=
        List.mem_of_mem_getLast? (by rw [hlast]; rfl)
      by_cases hcons : consistent current.problem
      · rw [if_pos hcons] at h
        by_cases hgoal : isgoal current.problem
        · rw [if_pos hgoal] at h
          have h1 : (some (some current) : Option (Option SNode)) = some (some n) :=
            congrArg Prod.fst h
          have h2 : current = n := by
            cases h1
            rfl
          exact h2 ▸ ⟨hP current hcur, hgoal⟩
        · rw [if_neg hgoal] at h
          apply ih _ _ n m' ?_ h
          intro x hx
          rcases List.mem_append.mp hx with hx1 | hx2
          · exact hP x (List.dropLast_subset fringe hx1)
          · exact hexp current _ (hP current hcur) x hx2
      · rw [if_neg hcons] at h
        apply ih _ _ n m' ?_ h
        intro x hx
        exact hP x (List.dropLast_subset fringe hx)


theorem getNextPosition_some_of_empty (s : Grid) (h : hasEmptyCellb s = true) :
    getNextPosition s none ≠ none := by
  intro hc
  obtain ⟨i, hi, hin⟩ := List.any_eq_true.mp h
  obtain ⟨j, hj, hcell⟩ := List.any_eq_true.mp hin
  have hi9 := List.mem_range.mp hi
  have hj9 := List.mem_range.mp hj
  have hnone : s i j = none := Option.isNone_iff_eq_none.mp hcell
  have hfs : scanFrom s 0 0 = none := by
    have hgn : getNextPosition s none = scanFrom s 0 0 := by
      show (if 9 ≤ (0 : ℕ) then scanFrom s (0 + 1) 0 else scanFrom s 0 0) = scanFrom s 0 0
      rw [if_neg (by omega)]
    rw [← hgn]
    exact hc
  unfold scanFrom at hfs
  have hrow := List.findSome?_eq_none_iff.mp hfs i
    (List.mem_range'_1.mpr ⟨by omega, by omega⟩)
  rw [ite_self] at hrow
  have hcol := List.findSome?_eq_none_iff.mp hrow j
    (List.mem_range'_1.mpr ⟨by omega, by simpa using List.mem_range.mp hj⟩)
  rw [if_pos hnone] at hcol
  exact absurd hcol (by simp)

theorem mrvStep_some (p : Problem) (q : Pos) (bb : Pos × ℕ) :
    (if p.state q.1 q.2 = none then
      let ds := (p.domain q.1 q.2).length
      match (some bb : Option (Pos × ℕ)) with
      | none => if 0 < ds then some (q, ds) else none
      | some (b, best) => if ds < best ∧ 0 < ds then some (q, ds) else some (b, best)
    else some bb) ≠ none := by
  obtain ⟨b, best⟩ := bb
  by_cases hn : p.state q.1 q.2 = none
  · rw [if_pos hn]
    dsimp only
    by_cases hds : (p.domain q.1 q.2).length < best ∧ 0 < (p.domain q.1 q.2).length
    · rw [if_pos hds]
      simp
    · rw [if_neg hds]
      simp
  · rw [if_neg hn]
    simp

theorem mrvFold_some (p : Problem) :
    ∀ (l : List Pos) (acc : Option (Pos × ℕ)),
      (acc ≠ none ∨ ∃ q ∈ l, p.state q.1 q.2 = none ∧ 0 < (p.domain q.1 q.2).length) →
      l.foldl (fun (acc : Option (Pos × ℕ)) q =>
        if p.state q.1 q.2 = none then
          let ds := (p.domain q.1 q.2).length
          match acc with
          | none => if 0 < ds then some (q, ds) else none
          | some (b, best) => if ds < best ∧ 0 < ds then some (q, ds) else some (b, best)
        else acc) acc ≠ none := by
  intro l
  induction l with
  | nil =>
    intro acc hyp
    rcases hyp with h | ⟨q, hq, _⟩
    · exact h
    · exact absurd hq (List.not_mem_nil q)
  | cons q l ih =>
    intro acc hyp
    rw [List.foldl_cons]
    apply ih
    cases acc with
    | some bb => exact Or.inl (mrvStep_some p q bb)
    | none =>
      rcases hyp with h | ⟨q', hq', hcond⟩
      · exact absurd rfl h
      · rcases List.mem_cons.mp hq' with rfl | hmem
        · refine Or.inl ?_
          rw [if_pos hcond.1]
          dsimp only
          rw [if_pos hcond.2]
          simp
        · exact Or.inr ⟨q', hmem, hcond⟩

theorem getMRVPosition_initiate_some (s : Grid) (h : hasEmptyCellb s = true) :
    getMRVPosition (initiate s) ≠ none := by
  obtain ⟨i, hi, hin⟩ := List.any_eq_true.mp h
  obtain ⟨j, hj, hcell⟩ := List.any_eq_true.mp hin
  have hi9 := List.mem_range.mp hi
  have hj9 := List.mem_range.mp hj
  have hnone : s i j = none := Option.isNone_iff_eq_none.mp hcell
  intro hc
  unfold getMRVPosition at hc
  rw [Option.map_eq_none'] at hc
  apply mrvFold_some (initiate s) allCells none ?_ hc
  refine Or.inr ⟨(i, j), (allCells_mem (i, j)).mpr ⟨hi9, hj9⟩, hnone, ?_⟩
  show 0 < ((initiate s).domain i j).length
  unfold initiate
  dsimp only
  rw [if_pos ⟨hi9, hj9⟩, if_pos hnone]
  simp


theorem getD_mem_of_lt (l : List Pos) (i : ℕ) (d : Pos) (h : i < l.length) :
    l.getD i d ∈ l := by
  rw [List.getD_eq_getElem l d h]
  exact List.getElem_mem h

theorem map_swap_perm (g : Grid) (L : List Pos) (hL : L.Nodup) (a b : Pos)
    (ha : a ∈ L) (hb : b ∈ L) (hab : a ≠ b) :
    (L.map fun q =>
      (setCellG (setCellG g a.1 a.2 (g b.1 b.2)) b.1 b.2 (g a.1 a.2)) q.1 q.2).Perm
      (L.map fun q => g q.1 q.2) := by
  have hprodab : ¬(a.1 = b.1 ∧ a.2 = b.2) := by
    intro hcon
    exact hab (Prod.ext hcon.1 hcon.2)
  obtain ⟨s1, t1, rfl⟩ := List.append_of_mem ha
  have hb2 : b ∈ s1 ++ t1 := by
    rcases List.mem_append.mp hb with h | h
    · exact List.mem_append.mpr (Or.inl h)
    · rcases List.mem_cons.mp h with h' | h'
      · exact absurd h'.symm hab
      · exact List.mem_append.mpr (Or.inr h')
  obtain ⟨s2, t2, hst⟩ := List.append_of_mem hb2
  have hperm1 : (s1 ++ a :: t1).Perm (a :: (s1 ++ t1)) := List.perm_middle
  have hperm2 : (s1 ++ t1).Perm (b :: (s2 ++ t2)) := by
    rw [hst]
    exact List.perm_middle
  have hLL : (s1 ++ a :: t1).Perm (a :: b :: (s2 ++ t2)) := hperm1.trans (hperm2.cons a)
  have hnd : (a :: b :: (s2 ++ t2)).Nodup := hLL.nodup_iff.mp hL
  have hanotin : a ∉ s2 ++ t2 := by
    intro hmem
    exact (List.nodup_cons.mp hnd).1 (List.mem_cons.mpr (Or.inr hmem))
  have hbnotin : b ∉ s2 ++ t2 :=
    (List.nodup_cons.mp (List.nodup_cons.mp hnd).2).1
  have hva : (setCellG (setCellG g a.1 a.2 (g b.1 b.2)) b.1 b.2 (g a.1 a.2)) a.1 a.2
      = g b.1 b.2 := by
    unfold setCellG
    rw [if_neg hprodab, if_pos ⟨rfl, rfl⟩]
  have hvb : (setCellG (setCellG g a.1 a.2 (g b.1 b.2)) b.1 b.2 (g a.1 a.2)) b.1 b.2
      = g a.1 a.2 := by
    unfold setCellG
    rw [if_pos ⟨rfl, rfl⟩]
  have hrest : ((s2 ++ t2).map fun q =>
      (setCellG (setCellG g a.1 a.2 (g b.1 b.2)) b.1 b.2 (g a.1 a.2)) q.1 q.2) =
      ((s2 ++ t2).map fun q => g q.1 q.2) := by
    apply List.map_congr_left
    intro q hq
    have hqa : ¬(q.1 = a.1 ∧ q.2 = a.2) := by
      intro hcon
      exact hanotin ((Prod.ext hcon.1 hcon.2 : q = a) ▸ hq)
    have hqb : ¬(q.1 = b.1 ∧ q.2 = b.2) := by
      intro hcon
      exact hbnotin ((Prod.ext hcon.1 hcon.2 : q = b) ▸ hq)
    show setCellG (setCellG g a.1 a.2 (g b.1 b.2)) b.1 b.2 (g a.1 a.2) q.1 q.2 = g q.1 q.2
    unfold setCellG
    rw [if_neg hqb, if_neg hqa]
  have t24 : ((a :: b :: (s2 ++ t2)).map fun q =>
      (setCellG (setCellG g a.1 a.2 (g b.1 b.2)) b.1 b.2 (g a.1 a.2)) q.1 q.2).Perm
      ((a :: b :: (s2 ++ t2)).map fun q => g q.1 q.2) := by
    simp only [List.map_cons]
    rw [hva, hvb, hrest]
    exact List.Perm.swap _ _ _
  exact ((hLL.map _).trans t24).trans (hLL.map _).symm

theorem BlockPerm_swap (g : Grid) (fixd : FMat) (br bc : ℕ) (hbr : br < 3) (hbc : bc < 3)
    (a b : Pos) (ha : a ∈ nonFixedCells fixd br bc) (hb : b ∈ nonFixedCells fixd br bc)
    (hab : a ≠ b) (hP : BlockPerm g) :
    BlockPerm (setCellG (setCellG g a.1 a.2 (g b.1 b.2)) b.1 b.2 (g a.1 a.2)) := by
  have ha' : a ∈ blockCells br bc := List.mem_of_mem_filter ha
  have hb' : b ∈ blockCells br bc := List.mem_of_mem_filter hb
  intro br' bc' hbr' hbc'
  by_cases heq : br' = br ∧ bc' = bc
  · obtain ⟨h1, h2⟩ := heq
    subst h1
    subst h2
    exact (map_swap_perm g (blockCells br' bc') (blockCells_nodup br' bc') a b ha' hb'
      hab).trans (hP br' bc' hbr' hbc')
  · have hcongr : blockList
        (setCellG (setCellG g a.1 a.2 (g b.1 b.2)) b.1 b.2 (g a.1 a.2)) br' bc' =
        blockList g br' bc' := by
      unfold blockList
      apply List.map_congr_left
      intro q hq
      have hqm := (blockCells_mem br' bc' q).mp hq
      have ham := (blockCells_mem br bc a).mp ha'
      have hbm := (blockCells_mem br bc b).mp hb'
      have hqa : ¬(q.1 = a.1 ∧ q.2 = a.2) := by
        intro hcon
        exact heq ⟨by omega, by omega⟩
      have hqb : ¬(q.1 = b.1 ∧ q.2 = b.2) := by
        intro hcon
        exact heq ⟨by omega, by omega⟩
      show setCellG (setCellG g a.1 a.2 (g b.1 b.2)) b.1 b.2 (g a.1 a.2) q.1 q.2 = g q.1 q.2
      unfold setCellG
      rw [if_neg hqb, if_neg hqa]
    rw [hcongr]
    exact hP br' bc' hbr' hbc'

theorem saLoop_success_inv (o : SAOracle) (fixd : FMat) (P : Grid → Prop)
    (hswap : ∀ (cur : Grid) (br bc : ℕ), br < 3 → bc < 3 →
      ∀ a ∈ nonFixedCells fixd br bc, ∀ b ∈ nonFixedCells fixd br bc, a ≠ b → P cur →
      P (setCellG (setCellG cur a.1 a.2 (cur b.1 b.2)) b.1 b.2 (cur a.1 a.2))) :
    ∀ (steps : ℕ) (cur : Grid) (conf : ℕ) (m : Metrics) (t g : ℕ) (gr : Grid),
      conf = countConflicts cur → P cur →
      (saLoop o fixd steps cur conf m t g).result = some gr →
      P gr ∧ countConflicts gr = 0 := by
  intro steps
  induction steps with
  | zero =>
    intro cur conf m t g gr hsync hP hres
    by_cases hconf : conf = 0
    · rw [saLoop, if_pos hconf] at hres
      cases hres
      exact ⟨hP, by omega⟩
    · rw [saLoop, if_neg hconf] at hres
      exact absurd hres (by simp)
  | succ steps ih =>
    intro cur conf m t g gr hsync hP hres
    rw [saLoop] at hres
    by_cases hconf : conf = 0
    · rw [if_pos hconf] at hres
      cases hres
      exact ⟨hP, by omega⟩
    · rw [if_neg hconf] at hres
      dsimp only at hres
      by_cases hlen : (nonFixedCells fixd (o.pick t % 3) (o.pick (t + 1) % 3)).length < 2
      · rw [if_pos hlen] at hres
        exact ih cur conf _ (t + 2) g gr hsync hP hres
      · rw [if_neg hlen] at hres
        have hlen0 : 0 < (nonFixedCells fixd (o.pick t % 3) (o.pick (t + 1) % 3)).length := by
          omega
        set cells := nonFixedCells fixd (o.pick t % 3) (o.pick (t + 1) % 3) with hcells
        set a := cells.getD (o.pick (t + 2) % cells.length) (0, 0) with hadef
        set b := cells.getD (o.pick (t + 3) % cells.length) (0, 0) with hbdef
        by_cases hab : a = b
        · rw [if_pos hab] at hres
          exact ih cur conf _ (t + 4) g gr hsync hP hres
        · rw [if_neg hab] at hres
          have hamem : a ∈ cells := getD_mem_of_lt cells _ (0, 0) (Nat.mod_lt _ hlen0)
          have hbmem : b ∈ cells := getD_mem_of_lt cells _ (0, 0) (Nat.mod_lt _ hlen0)
          have hPnext : P (setCellG (setCellG cur a.1 a.2 (cur b.1 b.2)) b.1 b.2
              (cur a.1 a.2)) :=
            hswap cur _ _ (Nat.mod_lt _ (by omega)) (Nat.mod_lt _ (by omega))
              a hamem b hbmem hab hP
          by_cases hacc : countConflicts (setCellG (setCellG cur a.1 a.2 (cur b.1 b.2))
              b.1 b.2 (cur a.1 a.2)) < conf ∨ o.accept (t + 4) = true
          · rw [if_pos hacc] at hres
            exact ih _ _ _ _ _ gr rfl hPnext hres
          · rw [if_neg hacc] at hres
            exact ih cur conf _ _ _ gr hsync hP hres

/-! ### C1: the simulated-annealing seed produces block permutations -/

theorem count_set_eq (l : List ℕ) (i b v : ℕ) (h : i < l.length) :
    (l.set i b).count v + (if l[i] = v then 1 else 0)
      = l.count v + (if b = v then 1 else 0) := by
  conv_rhs => rw [← List.take_append_drop i l, List.drop_eq_getElem_cons h]
  rw [List.set_eq_take_cons_drop _ h]
  simp only [List.count_append, List.count_cons, beq_iff_eq]
  split_ifs <;> omega

theorem swapL_count (l : List ℕ) (i j v : ℕ) (hi : i < l.length) (hj : j < l.length) :
    (swapL l i j).count v = l.count v := by
  unfold swapL
  rw [List.getD_eq_getElem l 0 hj, List.getD_eq_getElem l 0 hi]
  have hj' : j < (l.set i l[j]).length := by simpa using hj
  have h1 := count_set_eq l i (l[j]) v hi
  have h2 := count_set_eq (l.set i l[j]) j (l[i]) v hj'
  have hx : (l.set i l[j])[j] = l[j] := by
    by_cases hij : i = j
    · subst hij
      exact List.getElem_set_self hj'
    · exact List.getElem_set_ne hij hj'
  rw [hx] at h2
  have h3 : (((l.set i l[j]).set j l[i]).count v + (if l[j] = v then 1 else 0))
      = l.count v + (if l[j] = v then 1 else 0) := by omega
  exact Nat.add_right_cancel h3

theorem swapL_length (l : List ℕ) (i j : ℕ) : (swapL l i j).length = l.length := by
  unfold swapL
  simp

theorem shuffle_inv (o : SAOracle) (l : List ℕ) (t : ℕ) :
    (∀ v, (shuffle o l t).1.count v = l.count v) ∧
      (shuffle o l t).1.length = l.length := by
  have hgen : ∀ (idxs : List ℕ) (acc : List ℕ × ℕ),
      (∀ i ∈ idxs, i < l.length) →
      (∀ v, acc.1.count v = l.count v) → acc.1.length = l.length →
      (∀ v, (idxs.foldl (fun acc i =>
          (swapL acc.1 i (o.pick acc.2 % (i + 1)), acc.2 + 1)) acc).1.count v = l.count v) ∧
        (idxs.foldl (fun acc i =>
          (swapL acc.1 i (o.pick acc.2 % (i + 1)), acc.2 + 1)) acc).1.length = l.length := by
    intro idxs
    induction idxs with
    | nil => intro acc _ hc hl; exact ⟨hc, hl⟩
    | cons x xs ih =>
      intro acc hmem hc hl
      rw [List.foldl_cons]
      have hx : x < acc.1.length := by rw [hl]; exact hmem x (List.mem_cons_self x xs)
      have hjx : o.pick acc.2 % (x + 1) < acc.1.length := by
        have := Nat.mod_lt (o.pick acc.2) (show 0 < x + 1 by omega)
        omega
      apply ih
      · intro i hi; exact hmem i (List.mem_cons.mpr (Or.inr hi))
      · intro v
        dsimp only
        rw [swapL_count _ _ _ v hx hjx]
        exact hc v
      · dsimp only
        rw [swapL_length, hl]
  apply hgen
  · intro i hi
    rw [List.mem_reverse] at hi
    have := List.mem_range'_1.mp hi
    omega
  · intro v; rfl
  · rfl

theorem countP_partition {α : Type} (p : α → Bool) :
    ∀ l : List α, l.countP p + l.countP (fun a => !(p a)) = l.length := by
  intro l
  induction l with
  | nil => rfl
  | cons x xs ih =>
    by_cases h : p x = true
    · rw [List.countP_cons_of_pos _ _ h, List.countP_cons_of_neg _ _ (by simp [h]),
        List.length_cons]
      omega
    · have hf : p x = false := Bool.eq_false_iff.mpr h
      rw [List.countP_cons_of_neg _ _ (by simp [hf]), List.countP_cons_of_pos _ _ (by simp [hf]),
        List.length_cons]
      omega

theorem nodup_filterMap_inj (f : Pos → Option ℕ) :
    ∀ L : List Pos, L.Nodup →
      (∀ a ∈ L, ∀ b ∈ L, ∀ c, f a = some c → f b = some c → a = b) →
      (L.filterMap f).Nodup := by
  intro L
  induction L with
  | nil => intro _ _; simp
  | cons x xs ih =>
    intro hnd hinj
    obtain ⟨hx, hnd'⟩ := List.nodup_cons.mp hnd
    rw [List.filterMap_cons]
    have htail : (xs.filterMap f).Nodup :=
      ih hnd' fun a ha b hb c h1 h2 =>
        hinj a (List.mem_cons.mpr (Or.inr ha)) b (List.mem_cons.mpr (Or.inr hb)) c h1 h2
    cases hfx : f x with
    | none => exact htail
    | some c =>
      apply List.nodup_cons.mpr
      refine ⟨?_, htail⟩
      intro hmem
      obtain ⟨a, haxs, hfa⟩ := List.mem_filterMap.mp hmem
      have hax : a = x :=
        hinj a (List.mem_cons.mpr (Or.inr haxs)) x (List.mem_cons.mpr (Or.inl rfl)) c hfa hfx
      exact hx (hax ▸ haxs)

theorem presentVals_nodup (s : Grid) (hcons : noTwoShared s) (br bc : ℕ)
    (hbr : br < 3) (hbc : bc < 3) : (presentVals s br bc).Nodup := by
  apply nodup_filterMap_inj _ _ (blockCells_nodup br bc)
  intro a ha b hb c h1 h2
  by_contra hab
  have hma := (blockCells_mem br bc a).mp ha
  have hmb := (blockCells_mem br bc b).mp hb
  have hne : (a.1, a.2) ≠ (b.1, b.2) := by
    intro hcon
    exact hab (Prod.ext_iff.mpr ⟨(Prod.mk.injEq _ _ _ _ ▸ hcon : _ ∧ _).1,
      (Prod.mk.injEq _ _ _ _ ▸ hcon : _ ∧ _).2⟩)
  exact hcons a.1 a.2 b.1 b.2 c (by omega) (by omega) (by omega) (by omega) hne h1 h2
    (Or.inr (Or.inr ⟨by omega, by omega⟩))

theorem presentVals_sub (s : Grid) (hdig : GridDigits s) (br bc : ℕ)
    (hbr : br < 3) (hbc : bc < 3) : ∀ v ∈ presentVals s br bc, 1 ≤ v ∧ v ≤ 9 := by
  intro v hv
  obtain ⟨q, hq, hfq⟩ := List.mem_filterMap.mp hv
  have hm := (blockCells_mem br bc q).mp hq
  exact hdig q.1 q.2 (by omega) (by omega) v hfq

theorem count_range19 (v : ℕ) :
    (List.range' 1 9).count v = if 1 ≤ v ∧ v < 10 then 1 else 0 := by
  by_cases h : 1 ≤ v ∧ v < 10
  · rw [if_pos h]
    exact List.count_eq_one_of_mem (List.nodup_range' 1 9)
      (List.mem_range'_1.mpr ⟨h.1, by omega⟩)
  · rw [if_neg h]
    exact List.count_eq_zero.mpr fun hc => h (by have := List.mem_range'_1.mp hc; omega)

theorem missing_count (pres : List ℕ) (v : ℕ) :
    ((List.range' 1 9).filter fun n => !pres.contains n).count v =
      if (1 ≤ v ∧ v < 10) ∧ v ∉ pres then 1 else 0 := by
  by_cases hvp : v ∈ pres
  · have hpf : (!pres.contains v) = false := by
      simp [hvp]
    rw [if_neg fun hc => hc.2 hvp]
    apply List.count_eq_zero.mpr
    intro hc
    have := List.mem_filter.mp hc
    rw [hpf] at this
    exact Bool.false_ne_true this.2
  · have hpt : (!pres.contains v) = true := by
      simp only [Bool.not_eq_true']
      rw [← Bool.not_eq_true]
      intro hc
      exact hvp (List.elem_iff.mp hc)
    rw [@List.count_filter ℕ _ _ (fun n => !pres.contains n) v (List.range' 1 9) hpt,
      count_range19]
    by_cases h : 1 ≤ v ∧ v < 10
    · rw [if_pos h, if_pos ⟨h, hvp⟩]
    · rw [if_neg h, if_neg (fun hc => h hc.1)]

theorem missing_length (pres : List ℕ) (hnd : pres.Nodup)
    (hsub : ∀ v ∈ pres, 1 ≤ v ∧ v ≤ 9) :
    ((List.range' 1 9).filter fun n => !pres.contains n).length + pres.length = 9 := by
  have hperm : ((List.range' 1 9).filter fun n => pres.contains n).Perm pres := by
    rw [List.perm_iff_count]
    intro v
    by_cases hvp : v ∈ pres
    · have hpt : (pres.contains v : Bool) = true := List.elem_eq_true_of_mem hvp
      rw [List.count_filter hpt, count_range19,
        if_pos (by have := hsub v hvp; omega : 1 ≤ v ∧ v < 10)]
      exact (List.count_eq_one_of_mem hnd hvp).symm
    · rw [List.count_eq_zero.mpr hvp]
      apply List.count_eq_zero.mpr
      intro hc
      exact hvp (List.elem_iff.mp (List.mem_filter.mp hc).2)
  have hlf : ((List.range' 1 9).filter fun n => pres.contains n).length = pres.length :=
    hperm.length_eq
  have hpart := countP_partition (fun n => pres.contains n) (List.range' 1 9)
  rw [List.countP_eq_length_filter, List.countP_eq_length_filter] at hpart
  have h9 : (List.range' 1 9).length = 9 := by simp
  omega

/-- Characterisation of the fill fold of `fillBlock`: cells outside the
list are untouched, and the written cells are a permutation of the values
already present plus the consumed prefix of the missing list. -/
theorem fillFold_spec (miss : List ℕ) :
    ∀ (cs : List Pos) (g : Grid) (idx : ℕ), cs.Nodup →
      idx + (cs.countP fun q => (g q.1 q.2).isNone) ≤ miss.length →
      (∀ q : Pos, q ∉ cs → (fillFold miss cs g idx).1 q.1 q.2 = g q.1 q.2) ∧
      ((cs.map fun q => (fillFold miss cs g idx).1 q.1 q.2).Perm
        (((cs.filterMap fun q => g q.1 q.2).map some) ++
          (((miss.drop idx).take (cs.countP fun q => (g q.1 q.2).isNone)).map some))) := by
  intro cs
  induction cs with
  | nil =>
    intro g idx _ _
    exact ⟨fun q _ => rfl, by simp [fillFold]⟩
  | cons q0 cs ih =>
    intro g idx hnd hbound
    obtain ⟨hq0, hnd'⟩ := List.nodup_cons.mp hnd
    by_cases h : g q0.1 q0.2 = none
    · have hstep : fillFold miss (q0 :: cs) g idx =
          fillFold miss cs (setCellG g q0.1 q0.2 (some (miss.getD idx 0))) (idx + 1) := by
        unfold fillFold
        rw [List.foldl_cons]
        dsimp only
        rw [if_pos h]
      have hp0 : ((g q0.1 q0.2).isNone : Bool) = true := by
        rw [h]; rfl
      have hcnt : ((q0 :: cs).countP fun q => (g q.1 q.2).isNone)
          = (cs.countP fun q => (g q.1 q.2).isNone) + 1 :=
        List.countP_cons_of_pos _ _ hp0
      set g' := setCellG g q0.1 q0.2 (some (miss.getD idx 0)) with hg'
      have hcongr : ∀ q ∈ cs, g' q.1 q.2 = g q.1 q.2 := by
        intro q hq
        rw [hg']
        unfold setCellG
        rw [if_neg]
        intro hcon
        exact hq0 ((Prod.ext_iff.mpr ⟨hcon.1, hcon.2⟩ : q = q0) ▸ hq)
      have hcntP : (cs.countP fun q => (g' q.1 q.2).isNone)
          = (cs.countP fun q => (g q.1 q.2).isNone) := by
        rw [List.countP_eq_length_filter, List.countP_eq_length_filter]
        rw [List.filter_congr (fun q hq => by rw [hcongr q hq])]
      have hidx : idx < miss.length := by
        rw [hcnt] at hbound; omega
      have hbound' : idx + 1 + (cs.countP fun q => (g' q.1 q.2).isNone) ≤ miss.length := by
        rw [hcnt] at hbound
        rw [hcntP]
        omega
      obtain ⟨huntouched, hperm⟩ := ih g' (idx + 1) hnd' hbound'
      rw [hstep, hcnt]
      constructor
      · intro q hq
        have hq1 : q ∉ cs := fun hc => hq (List.mem_cons.mpr (Or.inr hc))
        have hq2 : q ≠ q0 := fun hc => hq (List.mem_cons.mpr (Or.inl hc))
        rw [huntouched q hq1, hg']
        unfold setCellG
        rw [if_neg]
        intro hcon
        exact hq2 (Prod.ext_iff.mpr ⟨hcon.1, hcon.2⟩)
      · rw [List.map_cons]
        have hf0 : (fillFold miss cs g' (idx + 1)).1 q0.1 q0.2 = some (miss.getD idx 0) := by
          rw [huntouched q0 hq0, hg']
          unfold setCellG
          rw [if_pos ⟨rfl, rfl⟩]
        rw [hf0]
        have hfm : ((q0 :: cs).filterMap fun q => g q.1 q.2) =
            cs.filterMap fun q => g q.1 q.2 := by
          simp only [List.filterMap_cons, h]
        rw [hfm]
        have hdrop : miss.drop idx = miss.getD idx 0 :: miss.drop (idx + 1) := by
          rw [List.getD_eq_getElem miss 0 hidx]
          exact List.drop_eq_getElem_cons hidx
        rw [hdrop, List.take_succ_cons, List.map_cons]
        have hfmg : (cs.filterMap fun q => g' q.1 q.2) = cs.filterMap fun q => g q.1 q.2 :=
          List.filterMap_congr hcongr
        rw [hfmg, hcntP] at hperm
        exact (hperm.cons _).trans List.perm_middle.symm
    · have hstep : fillFold miss (q0 :: cs) g idx = fillFold miss cs g idx := by
        unfold fillFold
        rw [List.foldl_cons]
        dsimp only
        rw [if_neg h]
      have hp0 : ((g q0.1 q0.2).isNone : Bool) = false := by
        obtain ⟨v, hv⟩ := Option.ne_none_iff_exists'.mp h
        rw [hv]; rfl
      have hcnt : ((q0 :: cs).countP fun q => (g q.1 q.2).isNone)
          = (cs.countP fun q => (g q.1 q.2).isNone) :=
        List.countP_cons_of_neg _ _ (by rw [hp0]; simp)
      obtain ⟨huntouched, hperm⟩ := ih g idx hnd' (by rw [hcnt] at hbound; exact hbound)
      rw [hstep, hcnt]
      constructor
      · intro q hq
        exact huntouched q (fun hc => hq (List.mem_cons.mpr (Or.inr hc)))
      · rw [List.map_cons]
        obtain ⟨v, hv⟩ := Option.ne_none_iff_exists'.mp h
        have hf0 : (fillFold miss cs g idx).1 q0.1 q0.2 = some v := by
          rw [huntouched q0 hq0, hv]
        have hfm : ((q0 :: cs).filterMap fun q => g q.1 q.2) =
            v :: cs.filterMap fun q => g q.1 q.2 := by
          simp only [List.filterMap_cons, hv]
        rw [hf0, hfm, List.map_cons, List.cons_append]
        exact hperm.cons _

/-- Filling one block of the seed grid turns that block into a permutation
of `1..9` and leaves every other cell untouched. -/
theorem fillBlock_perm (s g : Grid) (br bc : ℕ) (hbr : br < 3) (hbc : bc < 3)
    (hdig : GridDigits s) (hcons : noTwoShared s)
    (hagree : ∀ q ∈ blockCells br bc, g q.1 q.2 = s q.1 q.2)
    (miss' : List ℕ)
    (hcnt : ∀ v, miss'.count v = (missingVals s br bc).count v)
    (hlen : miss'.length = (missingVals s br bc).length) :
    (blockList (fillBlock g miss' br bc) br bc).Perm ((List.range' 1 9).map some) ∧
      ∀ q : Pos, q ∉ blockCells br bc → fillBlock g miss' br bc q.1 q.2 = g q.1 q.2 := by
  have hfb : fillBlock g miss' br bc = (fillFold miss' (blockCells br bc) g 0).1 := rfl
  have hpres : presentVals g br bc = presentVals s br bc :=
    List.filterMap_congr hagree
  have hknd : (presentVals s br bc).Nodup := presentVals_nodup s hcons br bc hbr hbc
  have hksub : ∀ v ∈ presentVals s br bc, 1 ≤ v ∧ v ≤ 9 :=
    presentVals_sub s hdig br bc hbr hbc
  have hmlen : (missingVals s br bc).length + (presentVals s br bc).length = 9 :=
    missing_length _ hknd hksub
  have h1 : ((blockCells br bc).filterMap fun q => g q.1 q.2).length
      = (blockCells br bc).countP fun q => (g q.1 q.2).isSome :=
    List.length_filterMap_eq_countP _ _
  have h2 : ((blockCells br bc).countP fun q => (g q.1 q.2).isSome)
      + ((blockCells br bc).countP fun q => !(g q.1 q.2).isSome)
      = (blockCells br bc).length :=
    countP_partition _ _
  have h3 : ((blockCells br bc).countP fun q => (g q.1 q.2).isNone)
      = (blockCells br bc).countP fun q => !(g q.1 q.2).isSome := by
    rw [List.countP_eq_length_filter, List.countP_eq_length_filter,
      List.filter_congr fun q hq => (Option.bnot_isSome (g q.1 q.2)).symm]
  have h4 : ((blockCells br bc).filterMap fun q => g q.1 q.2).length
      = (presentVals s br bc).length := by
    rw [show ((blockCells br bc).filterMap fun q => g q.1 q.2) = presentVals g br bc from rfl,
      hpres]
  have hmk : ((blockCells br bc).countP fun q => (g q.1 q.2).isNone) = miss'.length := by
    have h9 := blockCells_length br bc
    omega
  obtain ⟨hunt, hperm⟩ :=
    fillFold_spec miss' (blockCells br bc) g 0 (blockCells_nodup br bc) (by omega)
  constructor
  · have hbl : blockList (fillBlock g miss' br bc) br bc
        = (blockCells br bc).map fun q => (fillFold miss' (blockCells br bc) g 0).1 q.1 q.2 := by
      rw [blockList, hfb]
    rw [hbl]
    refine hperm.trans ?_
    rw [List.drop_zero, hmk, List.take_length,
      show ((blockCells br bc).filterMap fun q => g q.1 q.2) = presentVals g br bc from rfl,
      hpres]
    rw [List.perm_iff_count]
    intro x
    cases x with
    | none =>
      have hz : ∀ l : List ℕ, ((l.map some).count (none : Option ℕ)) = 0 := by
        intro l
        apply List.count_eq_zero.mpr
        intro hc
        obtain ⟨v, _, hv⟩ := List.mem_map.mp hc
        exact Option.noConfusion hv
      rw [← count_beq_eq_count_dec, ← count_beq_eq_count_dec, List.count_append, hz, hz, hz]
    | some v =>
      rw [← count_beq_eq_count_dec, ← count_beq_eq_count_dec, List.count_append]
      have hmapc : ∀ l : List ℕ, ((l.map some).count (some v)) = l.count v := by
        intro l
        rw [count_beq_eq_count_dec,
          @List.count_map_of_injective ℕ (Option ℕ) _ _ l some (Option.some_injective ℕ) v]
      rw [hmapc, hmapc, hmapc, hcnt v]
      unfold missingVals
      rw [missing_count, count_range19]
      by_cases hvp : v ∈ presentVals s br bc
      · rw [if_neg fun hc => hc.2 hvp]
        rw [show (presentVals s br bc).count v = 1 from
            List.count_eq_one_of_mem hknd hvp,
          if_pos (show 1 ≤ v ∧ v < 10 by have := hksub v hvp; omega)]
      · rw [List.count_eq_zero.mpr hvp]
        by_cases h : 1 ≤ v ∧ v < 10
        · rw [if_pos ⟨h, hvp⟩, if_pos h]
        · rw [if_neg fun hc => h hc.1, if_neg h]
  · intro q hq
    rw [hfb]
    exact hunt q hq

theorem blocksIdx_nodup : blocksIdx.Nodup := by
  apply List.nodup_bind.mpr
  constructor
  · intro i _
    refine (List.nodup_range 3).map ?_
    intro a b h
    have := congrArg Prod.snd h
    simp only at this
    omega
  · apply List.Pairwise.imp ?_ (List.nodup_range 3)
    intro a b hab
    simp only [List.Disjoint, List.mem_map, List.mem_range]
    rintro x ⟨j, _, rfl⟩ ⟨j', _, h⟩
    have := congrArg Prod.fst h
    simp only at this
    omega

/-- Every fold over a duplicate-free in-range block list starting from the
input grid ends with all blocks being permutations of `1..9`. -/
theorem rca_fold_blockPerm (o : SAOracle) (s : Grid) (hdig : GridDigits s)
    (hcons : noTwoShared s) :
    ∀ (bs : List (ℕ × ℕ)), bs.Nodup → (∀ b ∈ bs, b.1 < 3 ∧ b.2 < 3) →
      ∀ (g : Grid) (t : ℕ),
        (∀ b ∈ bs, ∀ q ∈ blockCells b.1 b.2, g q.1 q.2 = s q.1 q.2) →
        (∀ br bc, br < 3 → bc < 3 → (br, bc) ∉ bs →
          (blockList g br bc).Perm ((List.range' 1 9).map some)) →
        BlockPerm (bs.foldl (rcaStep o) (g, t)).1 := by
  intro bs
  induction bs with
  | nil =>
    intro _ _ g t _ hdone
    intro br bc hbr hbc
    exact hdone br bc hbr hbc (List.not_mem_nil _)
  | cons b bs ih =>
    intro hnd hbnd g t hagree hdone
    obtain ⟨hb, hnd'⟩ := List.nodup_cons.mp hnd
    have hb3 := hbnd b (List.mem_cons_self b bs)
    rw [List.foldl_cons]
    have hstep : rcaStep o (g, t) b =
        (fillBlock g (shuffle o (missingVals g b.1 b.2) t).1 b.1 b.2,
          (shuffle o (missingVals g b.1 b.2) t).2) := rfl
    rw [hstep]
    have hpres : presentVals g b.1 b.2 = presentVals s b.1 b.2 :=
      List.filterMap_congr (hagree b (List.mem_cons_self b bs))
    have hmiss : missingVals g b.1 b.2 = missingVals s b.1 b.2 := by
      unfold missingVals
      rw [hpres]
    obtain ⟨hcnt0, hlen0⟩ := shuffle_inv o (missingVals g b.1 b.2) t
    obtain ⟨hP, huntouched⟩ :=
      fillBlock_perm s g b.1 b.2 hb3.1 hb3.2 hdig hcons (hagree b (List.mem_cons_self b bs))
        (shuffle o (missingVals g b.1 b.2) t).1
        (fun v => by rw [hcnt0 v, hmiss]) (by rw [hlen0, hmiss])
    apply ih hnd' (fun b' hb' => hbnd b' (List.mem_cons.mpr (Or.inr hb')))
    · intro b' hb' q hq
      rw [huntouched q ?_]
      · exact hagree b' (List.mem_cons.mpr (Or.inr hb')) q hq
      · intro hqb
        have h1 := (blockCells_mem b.1 b.2 q).mp hqb
        have h2 := (blockCells_mem b'.1 b'.2 q).mp hq
        have hbb' : b' ≠ b := fun hc => hb (hc ▸ hb')
        exact hbb' (Prod.ext_iff.mpr ⟨by omega, by omega⟩)
    · intro br bc hbr hbc hnot
      by_cases hbeq : b = (br, bc)
      · subst hbeq
        exact hP
      · have hnotin : (br, bc) ∉ b :: bs := by
          intro hc
          rcases List.mem_cons.mp hc with hc | hc
          · exact hbeq hc.symm
          · exact hnot hc
        have hcongr : blockList
            (fillBlock g (shuffle o (missingVals g b.1 b.2) t).1 b.1 b.2) br bc
            = blockList g br bc := by
          unfold blockList
          apply List.map_congr_left
          intro q hq
          apply huntouched
          intro hqb
          have h1 := (blockCells_mem b.1 b.2 q).mp hqb
          have h2 := (blockCells_mem br bc q).mp hq
          exact hbeq (Prod.ext_iff.mpr ⟨by omega, by omega⟩)
        rw [hcongr]
        exact hdone br bc hbr hbc hnotin

/-- The seed of `simulatedAnnealing` satisfies the block invariant. -/
theorem rca_blockPerm (o : SAOracle) (s : Grid) (t : ℕ) (hdig : GridDigits s)
    (hcons : noTwoShared s) : BlockPerm (randomCompleteAssignment o s t).1 := by
  apply rca_fold_blockPerm o s hdig hcons blocksIdx blocksIdx_nodup
  · intro b hb
    exact (blocksIdx_mem b).mp hb
  · intro b hb q hq
    rfl
  · intro br bc hbr hbc hnot
    exact absurd ((blocksIdx_mem (br, bc)).mpr ⟨hbr, hbc⟩) hnot

theorem conflicts_zero_row (s : Grid) (hc : countConflicts s = 0) :
    ∀ i, i < 9 → rowConflicts s i = 0 := by
  intro i hi
  unfold countConflicts at hc
  rw [foldl_add_sum, foldl_add_sum] at hc
  have h1 : ((List.range 9).map (rowConflicts s)).sum = 0 := by omega
  have := List.sum_eq_zero_iff.mp h1
  exact this _ (List.mem_map.mpr ⟨i, List.mem_range.mpr hi, rfl⟩)

theorem conflicts_zero_col (s : Grid) (hc : countConflicts s = 0) :
    ∀ j, j < 9 → colConflicts s j = 0 := by
  intro j hj
  unfold countConflicts at hc
  rw [foldl_add_sum, foldl_add_sum] at hc
  have h1 : ((List.range 9).map (colConflicts s)).sum = 0 := by omega
  have := List.sum_eq_zero_iff.mp h1
  exact this _ (List.mem_map.mpr ⟨j, List.mem_range.mpr hj, rfl⟩)

theorem rowList_nodup (s : Grid) (i : ℕ) (h : rowConflicts s i = 0) :
    (rowList s i).Nodup := by
  rw [rowConflicts_spec] at h
  have hno := List.countP_eq_zero.mp h
  apply (List.nodup_map_iff_inj_on (List.nodup_range 9)).mpr
  intro a ha b hb hab
  by_contra hne
  rcases Nat.lt_or_ge a b with hlt | hge
  · have := hno b hb
    simp only [decide_eq_true_eq] at this
    exact this ⟨a, hlt, hab⟩
  · have hlt : b < a := by omega
    have := hno a ha
    simp only [decide_eq_true_eq] at this
    exact this ⟨b, hlt, hab.symm⟩

theorem colList_nodup (s : Grid) (j : ℕ) (h : colConflicts s j = 0) :
    (colList s j).Nodup := by
  rw [colConflicts_spec] at h
  have hno := List.countP_eq_zero.mp h
  apply (List.nodup_map_iff_inj_on (List.nodup_range 9)).mpr
  intro a ha b hb hab
  by_contra hne
  rcases Nat.lt_or_ge a b with hlt | hge
  · have := hno b hb
    simp only [decide_eq_true_eq] at this
    exact this ⟨a, hlt, hab⟩
  · have hlt : b < a := by omega
    have := hno a ha
    simp only [decide_eq_true_eq] at this
    exact this ⟨b, hlt, hab.symm⟩

/-- A grid whose blocks are permutations of `1..9` and whose seen-set
conflict count is zero is fully valid. -/
theorem fullValid_of_blockPerm (g : Grid) (hbp : BlockPerm g)
    (hconf : countConflicts g = 0) : fullValid g := by
  have hdigx : ∀ i j, i < 9 → j < 9 → ∃ v, g i j = some v ∧ 1 ≤ v ∧ v ≤ 9 := by
    intro i j hi hj
    have hq : ((i, j) : Pos) ∈ blockCells (i / 3) (j / 3) :=
      (blockCells_mem _ _ _).mpr ⟨by omega, by omega, by omega, by omega⟩
    have hperm := hbp (i / 3) (j / 3) (by omega) (by omega)
    have hmem : g i j ∈ blockList g (i / 3) (j / 3) :=
      List.mem_map.mpr ⟨(i, j), hq, rfl⟩
    have hmem2 := hperm.mem_iff.mp hmem
    obtain ⟨v, hv, hveq⟩ := List.mem_map.mp hmem2
    have hvb := List.mem_range'_1.mp hv
    exact ⟨v, hveq.symm, by omega, by omega⟩
  intro d hd1 hd9
  refine ⟨?_, ?_, ?_⟩
  · intro i hi
    apply count_one_of_nodup_digits _ (by simp [rowList]) ?_ ?_ d hd1 hd9
    · exact rowList_nodup g i (conflicts_zero_row g hconf i hi)
    · intro x hx
      obtain ⟨j, hj, rfl⟩ := List.mem_map.mp hx
      exact hdigx i j hi (List.mem_range.mp hj)
  · intro j hj
    apply count_one_of_nodup_digits _ (by simp [colList]) ?_ ?_ d hd1 hd9
    · exact colList_nodup g j (conflicts_zero_col g hconf j hj)
    · intro x hx
      obtain ⟨i, hi, rfl⟩ := List.mem_map.mp hx
      exact hdigx i j (List.mem_range.mp hi) hj
  · intro br bc hbr hbc
    apply count_one_of_nodup_digits _ ?_ ?_ ?_ d hd1 hd9
    · rw [show blockList g br bc = (blockCells br bc).map fun q => g q.1 q.2 from rfl,
        List.length_map, blockCells_length]
    · have hperm := hbp br bc hbr hbc
      have htnd : (((List.range' 1 9).map some : List (Option ℕ))).Nodup :=
        (List.nodup_range' 1 9).map (Option.some_injective ℕ)
      exact (hperm.nodup_iff).mpr htnd
    · intro x hx
      obtain ⟨q, hq, rfl⟩ := List.mem_map.mp hx
      have hqm := (blockCells_mem br bc q).mp hq
      exact hdigx q.1 q.2 (by omega) (by omega)

/-- Any node returned as success by the backtracking loop from a well-formed
fringe carries a fully valid grid. -/
theorem btRun_fullValid (expand : SNode → Metrics → List SNode × Metrics)
    (hexp : ∀ n m, NodeOK n → ∀ c ∈ (expand n m).1, NodeOK c)
    (fuel : ℕ) (fringe : List SNode) (m0 : Metrics) (n : SNode) (m' : Metrics)
    (hfr : ∀ x ∈ fringe, NodeOK x)
    (h : btLoop expand fuel fringe m0 = (some (some n), m')) :
    fullValid n.problem.state := by
  obtain ⟨hok, hgoal⟩ := btLoop_success expand NodeOK hexp fuel fringe m0 n m' hfr h
  obtain ⟨hfull, hcons⟩ := isgoal_spec n.problem hgoal
  exact fullValid_of_goal n.problem.state hok.1 hfull ((consistent_iff n.problem).mp hcons)


/-- C1 (amended): for digit-valued inputs with at least one empty cell whose
initial grid passes the `consistent` check, every success result of the four
search procedures is fully valid: no empty cell, and every row, column and
3×3 block holds each digit `1..9` exactly once.  The hypotheses are needed:
the full-grid early return of the backtracking entries skips the consistency
check, and annealing on inconsistent givens can return a grid with invalid
blocks (see the counterexample). -/
theorem claim_C1 (s : Grid) (hd : digitsOKb s = true) (he : hasEmptyCellb s = true)
    (hc : consistent (initiate s) = true) :
    (∀ fuel n m', backtack fuel s = (some (some n), m') → fullValid n.problem.state) ∧
    (∀ fuel n m', backtack_forward fuel s = (some (some n), m') →
      fullValid n.problem.state) ∧
    (∀ fuel n m', backtrack_MRV_LCV fuel s = (some (some n), m') →
      fullValid n.problem.state) ∧
    (∀ (o : SAOracle) (fixd : FMat) (maxSteps : ℕ) (gr : Grid),
      (simulatedAnnealing o s fixd maxSteps).result = some gr → fullValid gr) := by
  have hdig : GridDigits s := digitsOKb_spec s hd
  have hcons : noTwoShared s := (consistent_iff (initiate s)).mp hc
  refine ⟨?_, ?_, ?_, ?_⟩
  · intro fuel n m' h
    unfold backtack at h
    dsimp only at h
    cases hnp : getNextPosition s none with
    | none => exact absurd hnp (getNextPosition_some_of_empty s he)
    | some fe =>
      rw [hnp] at h
      apply btRun_fullValid getChildren getChildren_preserves fuel _ _ n m' ?_ h
      intro x hx
      rw [List.mem_singleton.mp hx]
      have hb := getNextPosition_mem s none fe hnp
      exact ⟨hdig, initiate_domains s, hb.1, hb.2.1⟩
  · intro fuel n m' h
    unfold backtack_forward at h
    dsimp only at h
    cases hnp : getNextPosition s none with
    | none => exact absurd hnp (getNextPosition_some_of_empty s he)
    | some fe =>
      rw [hnp] at h
      apply btRun_fullValid getChildren_forwarding getChildren_forwarding_preserves
        fuel _ _ n m' ?_ h
      intro x hx
      rw [List.mem_singleton.mp hx]
      have hb := getNextPosition_mem s none fe hnp
      exact ⟨hdig, initiate_domains s, hb.1, hb.2.1⟩
  · intro fuel n m' h
    unfold backtrack_MRV_LCV at h
    dsimp only at h
    cases hnp : getMRVPosition (initiate s) with
    | none => exact absurd hnp (getMRVPosition_initiate_some s he)
    | some fm =>
      rw [hnp] at h
      apply btRun_fullValid getChildren_MRV_LCV getChildren_MRV_LCV_preserves
        fuel _ _ n m' ?_ h
      intro x hx
      rw [List.mem_singleton.mp hx]
      have hb := getMRVPosition_mem (initiate s) fm hnp
      exact ⟨hdig, initiate_domains s, hb.1, hb.2⟩
  · intro o fixd maxSteps gr h
    unfold simulatedAnnealing at h
    dsimp only at h
    have hbp0 : BlockPerm (randomCompleteAssignment o s 0).1 :=
      rca_blockPerm o s 0 hdig hcons
    have hres := saLoop_success_inv o fixd BlockPerm
      (fun cur br bc hbr hbc a ha b hb hab hP =>
        BlockPerm_swap cur fixd br bc hbr hbc a b ha hb hab hP)
      maxSteps (randomCompleteAssignment o s 0).1 _ Metrics.reset
      (randomCompleteAssignment o s 0).2 0 gr rfl hbp0 h
    exact fullValid_of_blockPerm gr hres.1 hres.2


set_option maxRecDepth 40000 in
/-- C1 counterexample: without the amendment's hypotheses the claim is
false.  `backtack` on the all-ones grid (full, wildly inconsistent) returns
a success whose row 0 holds the digit 1 nine times, and simulated annealing
on the rotation grid with cell (0,0) cleared (rows and columns are
permutations but blocks repeat values, so the seen-set conflict count is 0)
returns a success whose block (0,0) holds the digit 3 three times. -/
theorem claim_C1_counterexample :
    (isSuccess (backtack 1 allOnesGrid).1 = true ∧
      ¬fullValid (resultState (backtack 1 allOnesGrid).1)) ∧
    ((simulatedAnnealing oracleId rotMinusGrid (initiate rotMinusGrid).fixd
        100).result.isSome = true ∧
      ¬fullValid (resultGrid (simulatedAnnealing oracleId rotMinusGrid
        (initiate rotMinusGrid).fixd 100))) := by
  refine ⟨⟨by decide, ?_⟩, ⟨by decide, ?_⟩⟩
  · intro hfv
    have h1 := (hfv 1 (by omega) (by omega)).1 0 (by omega)
    have h9 : (rowList (resultState (backtack 1 allOnesGrid).1) 0).count (some 1) = 9 := by
      decide
    omega
  · intro hfv
    have h1 := (hfv 3 (by omega) (by omega)).2.2 0 0 (by omega) (by omega)
    have h3 : (blockList (resultGrid (simulatedAnnealing oracleId rotMinusGrid
        (initiate rotMinusGrid).fixd 100)) 0 0).count (some 3) = 3 := by
      decide
    omega

/-- C1 witness: the amended theorem applies to the empty grid. -/
theorem claim_C1_witness :
    digitsOKb emptyGrid = true ∧ hasEmptyCellb emptyGrid = true ∧
      consistent (initiate emptyGrid) = true ∧
      (∀ fuel n m', backtack fuel emptyGrid = (some (some n), m') →
        fullValid n.problem.state) :=
  ⟨by decide, by decide, by decide,
    (claim_C1 emptyGrid (by decide) (by decide) (by decide)).1⟩

end SudokuTS
